import Mathlib

/- Verification of the tagged file browser server (server.js, db.js).

   Paths (both logical fullPaths such as "/root/a" and physical disk
   locations) are modelled as lists of characters.  The relational store
   (Folders, Files, FileTags, FolderTags) is modelled as lists of records,
   the disk as lists of directory paths and (file path, size) pairs, and
   the in-memory JobQueue as an explicit state machine.  Machine/SQL
   identifiers are natural numbers. -/

/-! ## Path layer -/

/-- One splitting step of `fullPath.split("/")`: `cur` is the reversed piece
read so far; a slash flushes it. -/
def splitSlashAux : List Char → List Char → List (List Char)
  | [], cur => [cur.reverse]
  | c :: rest, cur =>
    if c = '/' then cur.reverse :: splitSlashAux rest []
    else splitSlashAux rest (c :: cur)

/-- model of JavaScript `s.split("/")` for the single-character separator. -/
def splitSlash (s : List Char) : List (List Char) := splitSlashAux s []

/-- model of `fullPath.split("/").filter(Boolean)`: the non-empty pieces. -/
def pathParts (s : List Char) : List (List Char) :=
  (splitSlash s).filter (fun p => !p.isEmpty)

/-- join segments with '/' between consecutive segments (no leading slash). -/
def joinSlash : List (List Char) → List Char
  | [] => []
  | [s] => s
  | s :: t :: rest => s ++ '/' :: joinSlash (t :: rest)

/-- an absolute slash-separated path from its segments ("/" when empty). -/
def slashJoin (segs : List (List Char)) : List Char := '/' :: joinSlash segs

/-- one step of POSIX path normalisation over the segments of an absolute
path: "." is dropped, ".." pops the previous segment (staying at the root
when there is none), anything else is kept. -/
def normStep (acc : List (List Char)) (p : List Char) : List (List Char) :=
  if p = ['.'] then acc
  else if p = ['.', '.'] then acc.dropLast
  else acc ++ [p]

/-- segment-level model of the normalisation `path.join` applies to an
absolute path. -/
def normSegs (segs : List (List Char)) : List (List Char) :=
  segs.foldl normStep []

/-- the physical location of `UPLOAD_ROOT = path.join(__dirname, "uploads")`,
as an abstract fixed segment list ("/srv/app/uploads"). -/
def uploadRootSegs : List (List Char) :=
  [['s', 'r', 'v'], ['a', 'p', 'p'], ['u', 'p', 'l', 'o', 'a', 'd', 's']]

/-- segments of the physical path of a logical path: models
`path.join(UPLOAD_ROOT, ...parts)` in `fullPathToPhysical` (server.js
lines 53-56), including the normalisation `path.join` performs. -/
def fullPathToPhysicalSegs (fullPath : List Char) : List (List Char) :=
  normSegs (uploadRootSegs ++ pathParts fullPath)

/-- model of `fullPathToPhysical` (server.js lines 53-56): split the logical
path on '/', drop empty parts, join under the upload root. -/
def fullPathToPhysical (fullPath : List Char) : List Char :=
  slashJoin (fullPathToPhysicalSegs fullPath)

/-- segment-level model of `path.relative(from, to)` on absolute paths:
drop the common prefix, then one ".." per remaining `from` segment followed
by the remaining `to` segments. -/
def relSegs : List (List Char) → List (List Char) → List (List Char)
  | x :: xs, y :: ys =>
    if x = y then relSegs xs ys
    else (x :: xs).map (fun _ => ['.', '.']) ++ y :: ys
  | xs, ys => xs.map (fun _ => ['.', '.']) ++ ys

/-- the disk-to-logical path computation of the recursive reconciler,
`"/" + path.relative(UPLOAD_ROOT, p).replace(/\\/g, "/")` (app.js lines
2021-2022 and 2085-2086): the path relative to the upload root, with
platform separators replaced by '/' (the identity in this POSIX model) and
a '/' prefixed. -/
def toLogical (physical : List Char) : List Char :=
  slashJoin (relSegs uploadRootSegs (pathParts physical))

/-! ### Path lemmas -/

theorem splitSlashAux_noslash (seg : List Char) (h : ∀ c ∈ seg, c ≠ '/') :
    ∀ cur, splitSlashAux seg cur = [cur.reverse ++ seg] := by
  induction seg with
  | nil => intro cur; simp [splitSlashAux]
  | cons c rest ih =>
    intro cur
    have hc : c ≠ '/' := h c (List.mem_cons_self _ _)
    have ih2 := ih (fun x hx => h x (List.mem_cons_of_mem _ hx)) (c :: cur)
    simp only [splitSlashAux, if_neg hc, ih2, List.reverse_cons]
    simp

theorem splitSlashAux_split (seg : List Char) (h : ∀ c ∈ seg, c ≠ '/') :
    ∀ cur rest, splitSlashAux (seg ++ '/' :: rest) cur =
      (cur.reverse ++ seg) :: splitSlashAux rest [] := by
  induction seg with
  | nil => intro cur rest; simp [splitSlashAux]
  | cons c s ih =>
    intro cur rest
    have hc : c ≠ '/' := h c (List.mem_cons_self _ _)
    have ih2 := ih (fun x hx => h x (List.mem_cons_of_mem _ hx)) (c :: cur) rest
    show splitSlashAux (c :: (s ++ '/' :: rest)) cur = _
    simp only [splitSlashAux, if_neg hc]
    rw [ih2]
    simp

theorem splitSlashAux_joinSlash (s : List Char) (rest : List (List Char))
    (h : ∀ x ∈ s :: rest, ∀ c ∈ x, c ≠ '/') :
    splitSlashAux (joinSlash (s :: rest)) [] = s :: rest := by
  induction rest generalizing s with
  | nil =>
    have := splitSlashAux_noslash s (h s (List.mem_cons_self _ _)) []
    simpa [joinSlash] using this
  | cons t ts ih =>
    have hs : ∀ c ∈ s, c ≠ '/' := h s (List.mem_cons_self _ _)
    have hrec := ih t (fun x hx => h x (List.mem_cons_of_mem _ hx))
    show splitSlashAux (s ++ '/' :: joinSlash (t :: ts)) [] = s :: t :: ts
    rw [splitSlashAux_split s hs [] (joinSlash (t :: ts))]
    simp [hrec]

theorem pathParts_slashJoin (segs : List (List Char))
    (h : ∀ s ∈ segs, s ≠ [] ∧ ∀ c ∈ s, c ≠ '/') :
    pathParts (slashJoin segs) = segs := by
  cases segs with
  | nil => simp [pathParts, slashJoin, splitSlash, splitSlashAux, joinSlash]
  | cons s rest =>
    have hsplit : splitSlash (slashJoin (s :: rest)) =
        [] :: splitSlashAux (joinSlash (s :: rest)) [] := by
      simp [splitSlash, slashJoin, splitSlashAux]
    rw [pathParts, hsplit, splitSlashAux_joinSlash s rest (fun x hx => (h x hx).2)]
    have hne : ∀ x ∈ s :: rest, (!x.isEmpty) = true := by
      intro x hx
      simp [List.isEmpty_iff, (h x hx).1]
    simp [List.filter_cons, List.filter_eq_self.mpr hne]

theorem normSegs_foldl_eq (l : List (List Char))
    (h : ∀ s ∈ l, s ≠ ['.'] ∧ s ≠ ['.', '.']) :
    ∀ acc, List.foldl normStep acc l = acc ++ l := by
  induction l with
  | nil => intro acc; simp
  | cons p rest ih =>
    intro acc
    have hp := h p (List.mem_cons_self _ _)
    have step : normStep acc p = acc ++ [p] := by
      simp [normStep, hp.1, hp.2]
    rw [List.foldl_cons, step, ih (fun x hx => h x (List.mem_cons_of_mem _ hx))]
    simp

theorem normSegs_eq_self (l : List (List Char))
    (h : ∀ s ∈ l, s ≠ ['.'] ∧ s ≠ ['.', '.']) :
    normSegs l = l := by
  simpa [normSegs] using normSegs_foldl_eq l h []

theorem relSegs_append (a b : List (List Char)) : relSegs a (a ++ b) = b := by
  induction a with
  | nil => simp [relSegs]
  | cons x xs ih => simp [relSegs, ih]

theorem uploadRootSegs_wf :
    ∀ s ∈ uploadRootSegs,
      (s ≠ [] ∧ ∀ c ∈ s, c ≠ '/') ∧ s ≠ ['.'] ∧ s ≠ ['.', '.'] := by
  decide

/-! ## C7: path round trip -/

/-- C7, counterexample: the round trip fails, as stated, on the logical path
"/." — a path made of the single non-empty slash-free segment "." — because
`path.join` normalises the "." away: the physical path is the upload root
itself and maps back to "/", not "/.". -/
theorem c7_roundtrip_counterexample :
    (∀ s ∈ [['.']], s ≠ ([] : List Char) ∧ ∀ c ∈ s, c ≠ '/') ∧
    toLogical (fullPathToPhysical (slashJoin [['.']])) ≠ slashJoin [['.']] := by
  decide

/-- C7 (amended): for every logical path built from non-empty slash-free
segments none of which is "." or ".." , mapping to the physical location
under the upload root (`fullPathToPhysical`, server.js lines 53-56) and back
with the relative-path computation (`toLogical`, modelled from the spec)
returns the original logical path. -/
theorem c7_roundtrip_amended (segs : List (List Char))
    (h : ∀ s ∈ segs, s ≠ [] ∧ (∀ c ∈ s, c ≠ '/') ∧ s ≠ ['.'] ∧ s ≠ ['.', '.']) :
    toLogical (fullPathToPhysical (slashJoin segs)) = slashJoin segs := by
  have hparts : pathParts (slashJoin segs) = segs :=
    pathParts_slashJoin segs (fun s hs => ⟨(h s hs).1, (h s hs).2.1⟩)
  have hall : ∀ s ∈ uploadRootSegs ++ segs,
      (s ≠ [] ∧ ∀ c ∈ s, c ≠ '/') ∧ s ≠ ['.'] ∧ s ≠ ['.', '.'] := by
    intro s hs
    rcases List.mem_append.mp hs with hs | hs
    · exact uploadRootSegs_wf s hs
    · exact ⟨⟨(h s hs).1, (h s hs).2.1⟩, (h s hs).2.2.1, (h s hs).2.2.2⟩
  have hnorm : normSegs (uploadRootSegs ++ segs) = uploadRootSegs ++ segs :=
    normSegs_eq_self _ (fun s hs => (hall s hs).2)
  have hparts2 : pathParts (slashJoin (uploadRootSegs ++ segs)) =
      uploadRootSegs ++ segs :=
    pathParts_slashJoin _ (fun s hs => (hall s hs).1)
  rw [fullPathToPhysical, fullPathToPhysicalSegs, hparts, hnorm, toLogical,
    hparts2, relSegs_append]

/-- C7 witness: the amended round trip evaluated on the concrete logical
path "/root/a". -/
theorem c7_roundtrip_witness :
    (∀ s ∈ [['r', 'o', 'o', 't'], ['a']],
      s ≠ ([] : List Char) ∧ (∀ c ∈ s, c ≠ '/') ∧ s ≠ ['.'] ∧ s ≠ ['.', '.']) ∧
    toLogical (fullPathToPhysical (slashJoin [['r', 'o', 'o', 't'], ['a']])) =
      slashJoin [['r', 'o', 'o', 't'], ['a']] :=
  ⟨by decide, c7_roundtrip_amended _ (by decide)⟩

/-! ## Directory components of a path -/

/-- everything before the last '/' of a path (empty when there is no slash
or the only slash is leading a single segment). -/
def parentPath (p : List Char) : List Char :=
  ((p.reverse.dropWhile (fun c => !(c == '/'))).drop 1).reverse

/-- everything after the last '/' of a path. -/
def baseName (p : List Char) : List Char :=
  (p.reverse.takeWhile (fun c => !(c == '/'))).reverse

theorem dropWhile_append_all {p : Char → Bool} (l m : List Char)
    (h : ∀ c ∈ l, p c = true) :
    List.dropWhile p (l ++ m) = List.dropWhile p m := by
  induction l with
  | nil => rfl
  | cons c rest ih =>
    have hc := h c (List.mem_cons_self _ _)
    simp only [List.cons_append, List.dropWhile_cons, hc, if_true]
    exact ih (fun x hx => h x (List.mem_cons_of_mem _ hx))

theorem takeWhile_append_all {p : Char → Bool} (l m : List Char)
    (h : ∀ c ∈ l, p c = true) :
    List.takeWhile p (l ++ m) = l ++ List.takeWhile p m := by
  induction l with
  | nil => rfl
  | cons c rest ih =>
    have hc := h c (List.mem_cons_self _ _)
    simp only [List.cons_append, List.takeWhile_cons, hc, if_true]
    rw [ih (fun x hx => h x (List.mem_cons_of_mem _ hx))]

theorem parentPath_append (q name : List Char) (h : ∀ c ∈ name, c ≠ '/') :
    parentPath (q ++ '/' :: name) = q := by
  have hrev : (q ++ '/' :: name).reverse = name.reverse ++ '/' :: q.reverse := by
    simp
  have hall : ∀ c ∈ name.reverse, (!(c == '/')) = true := by
    intro c hc
    simp [h c (List.mem_reverse.mp hc)]
  rw [parentPath, hrev, dropWhile_append_all _ _ hall]
  simp [List.dropWhile_cons]

theorem baseName_append (q name : List Char) (h : ∀ c ∈ name, c ≠ '/') :
    baseName (q ++ '/' :: name) = name := by
  have hrev : (q ++ '/' :: name).reverse = name.reverse ++ '/' :: q.reverse := by
    simp
  have hall : ∀ c ∈ name.reverse, (!(c == '/')) = true := by
    intro c hc
    simp [h c (List.mem_reverse.mp hc)]
  rw [baseName, hrev, takeWhile_append_all _ _ hall]
  simp [List.takeWhile_cons]

/-! ## Store and disk model -/

/-- a row of the Folders table. -/
structure Folder where
  id : Nat
  name : List Char
  parentId : Option Nat
  fullPath : List Char
deriving DecidableEq

/-- a row of the Files table. -/
structure FileRec where
  id : Nat
  folderId : Nat
  name : List Char
  storagePath : List Char
  sizeBytes : Nat
  mimeType : List Char
deriving DecidableEq

/-- the relational store: Folders, Files and the two join tables
(FileTags and FolderTags rows are (ownerId, tagId) pairs). -/
structure Store where
  folders : List Folder
  files : List FileRec
  fileTags : List (Nat × Nat)
  folderTags : List (Nat × Nat)
deriving DecidableEq

/-- the physical filesystem: directory paths and (file path, size) pairs. -/
structure Disk where
  dirs : List (List Char)
  files : List ((List Char) × Nat)
deriving DecidableEq

/-! ## C6: delete-if-exists cleanup jobs and their idempotence -/

/-- model of the file cleanup job enqueued by GET /api/files (server.js
lines 577-587): `DELETE FROM FileTags WHERE FileId=@FileId; DELETE FROM
Files WHERE Id=@FileId;`. -/
def deleteFileCleanup (s : Store) (fileId : Nat) : Store :=
  { s with
      fileTags := s.fileTags.filter (fun ft => !(ft.1 == fileId)),
      files := s.files.filter (fun f => !(f.id == fileId)) }

/-- model of the folder cleanup job enqueued by GET /api/folders (server.js
lines 302-312) and by the recursive reconciler (app.js lines 2157-2172):
delete FileTags of the files in the folder, then those Files, then the
Folder row itself — whose deletion also cascades away the folder's
FolderTags rows through the `ON DELETE CASCADE` foreign key declared in
`ensureFolderTagsTable` (server.js lines 104-110). -/
def deleteFolderCleanup (s : Store) (folderId : Nat) : Store :=
  { s with
      fileTags := s.fileTags.filter (fun ft =>
        !(((s.files.filter (fun f => f.folderId == folderId)).map
            FileRec.id).contains ft.1)),
      files := s.files.filter (fun f => !(f.folderId == folderId)),
      folders := s.folders.filter (fun g => !(g.id == folderId)),
      folderTags := s.folderTags.filter (fun gt => !(gt.1 == folderId)) }

theorem filter_self_idem {α : Type} (p : α → Bool) (l : List α) :
    (l.filter p).filter p = l.filter p :=
  List.filter_eq_self.mpr (fun _ ha => List.of_mem_filter ha)

/-- C6: running a delete-if-exists cleanup job (tag associations first, then
the record) twice on the same id leaves the same store as running it once;
the second run deletes nothing and, the model being total, raises nothing.
Both the file cleanup job and the folder cleanup job are covered. -/
theorem c6_cleanup_idempotent (s : Store) (id : Nat) :
    deleteFileCleanup (deleteFileCleanup s id) id = deleteFileCleanup s id ∧
    deleteFolderCleanup (deleteFolderCleanup s id) id =
      deleteFolderCleanup s id := by
  constructor
  · simp [deleteFileCleanup, filter_self_idem]
  · have hvict :
        (deleteFolderCleanup s id).files.filter (fun f => f.folderId == id) = [] := by
      simp only [deleteFolderCleanup]
      rw [List.filter_eq_nil_iff]
      intro f hf
      have := List.of_mem_filter hf
      simpa using this
    simp [deleteFolderCleanup, hvict, filter_self_idem]

/-! ## Disk probes and background database jobs -/

/-- `fsPromises.access` probe of a file's storage path. -/
def fileExistsOnDisk (d : Disk) (p : List Char) : Bool :=
  d.files.any (fun f => f.1 == p)

/-- `fsPromises.access` probe of a directory's physical path. -/
def dirExistsOnDisk (d : Disk) (p : List Char) : Bool :=
  d.dirs.contains p

/-- a database cleanup job scheduled on the job queue by a listing read. -/
inductive DbJob
  | deleteFileRec (fileId : Nat)
  | deleteFolderRec (folderId : Nat)
deriving DecidableEq

/-- what a scheduled cleanup job does to the store when the queue runs it. -/
def runDbJob (s : Store) : DbJob → Store
  | .deleteFileRec i => deleteFileCleanup s i
  | .deleteFolderRec i => deleteFolderCleanup s i

/-! ## C3: stale-row probing on listing reads -/

/-- model of the probe loop in GET /api/files (server.js lines 567-591):
every candidate row has its `StoragePath` probed; rows that pass are kept in
order, rows that fail produce one cleanup job each, in order. -/
def probeFiles (d : Disk) : List FileRec → List FileRec × List DbJob
  | [] => ([], [])
  | row :: rest =>
    let r := probeFiles d rest
    if fileExistsOnDisk d row.storagePath then (row :: r.1, r.2)
    else (r.1, DbJob.deleteFileRec row.id :: r.2)

/-- model of the probe loop in GET /api/folders (server.js lines 291-319):
every candidate row has the physical path of its `FullPath` probed. -/
def probeFolders (d : Disk) : List Folder → List Folder × List DbJob
  | [] => ([], [])
  | row :: rest =>
    let r := probeFolders d rest
    if dirExistsOnDisk d (fullPathToPhysical row.fullPath) then (row :: r.1, r.2)
    else (r.1, DbJob.deleteFolderRec row.id :: r.2)

/-- the candidate rows of GET /api/folders: the SQL WHERE clause
`(@ParentId IS NULL AND f.ParentId IS NULL) OR f.ParentId = @ParentId`. -/
def foldersByParent (s : Store) (parentId : Option Nat) : List Folder :=
  s.folders.filter (fun f => f.parentId == parentId)

/-- GET /api/folders: select by parent, probe, return survivors and jobs. -/
def getFoldersHandler (d : Disk) (s : Store) (parentId : Option Nat) :
    List Folder × List DbJob :=
  probeFolders d (foldersByParent s parentId)

/-- GET /api/files: the candidate rows come from the opaque `GetFiles`
stored procedure (database-side, not in src/), so they are a parameter. -/
def getFilesHandler (d : Disk) (rows : List FileRec) :
    List FileRec × List DbJob :=
  probeFiles d rows

theorem probeFiles_eq (d : Disk) (rows : List FileRec) :
    probeFiles d rows =
      (rows.filter (fun r => fileExistsOnDisk d r.storagePath),
       (rows.filter (fun r => !(fileExistsOnDisk d r.storagePath))).map
         (fun r => DbJob.deleteFileRec r.id)) := by
  induction rows with
  | nil => rfl
  | cons row rest ih =>
    by_cases h : fileExistsOnDisk d row.storagePath
    · simp [probeFiles, ih, h, List.filter_cons]
    · simp [probeFiles, ih, h, List.filter_cons]

theorem probeFolders_eq (d : Disk) (rows : List Folder) :
    probeFolders d rows =
      (rows.filter (fun r => dirExistsOnDisk d (fullPathToPhysical r.fullPath)),
       (rows.filter (fun r =>
          !(dirExistsOnDisk d (fullPathToPhysical r.fullPath)))).map
         (fun r => DbJob.deleteFolderRec r.id)) := by
  induction rows with
  | nil => rfl
  | cons row rest ih =>
    by_cases h : dirExistsOnDisk d (fullPathToPhysical row.fullPath)
    · simp [probeFolders, ih, h, List.filter_cons]
    · simp [probeFolders, ih, h, List.filter_cons]

/-- C3: on both listing reads, the response is exactly the candidate rows
whose physical counterpart passes the existence probe, kept unchanged and
in order, and exactly one cleanup job deleting its database record is
scheduled for each row that fails the probe, in row order. -/
theorem c3_stale_read_exclusion (d : Disk) (s : Store) (parentId : Option Nat)
    (rows : List FileRec) :
    getFilesHandler d rows =
      (rows.filter (fun r => fileExistsOnDisk d r.storagePath),
       (rows.filter (fun r => !(fileExistsOnDisk d r.storagePath))).map
         (fun r => DbJob.deleteFileRec r.id)) ∧
    getFoldersHandler d s parentId =
      ((foldersByParent s parentId).filter
         (fun r => dirExistsOnDisk d (fullPathToPhysical r.fullPath)),
       ((foldersByParent s parentId).filter (fun r =>
          !(dirExistsOnDisk d (fullPathToPhysical r.fullPath)))).map
         (fun r => DbJob.deleteFolderRec r.id)) :=
  ⟨probeFiles_eq d rows, probeFolders_eq d (foldersByParent s parentId)⟩

/-! ## Shared file-record helpers -/

/-- "application/octet-stream", the default mime type for discovered files. -/
def octetStream : List Char :=
  ['a', 'p', 'p', 'l', 'i', 'c', 'a', 't', 'i', 'o', 'n', '/', 'o', 'c',
   't', 'e', 't', '-', 's', 't', 'r', 'e', 'a', 'm']

/-- a fresh Files identity value, modelling the SQL identity column. -/
def freshFileId (s : Store) : Nat :=
  (s.files.map FileRec.id).foldr max 0 + 1

/-! ## C10: DELETE /api/folder/:id -/

/-- model of DELETE /api/folder/:id (server.js lines 395-448): look the
folder up by id; in one batch delete the FileTags of all files owned by any
folder whose FullPath matches `LIKE folder.FullPath + "%"`, then those
Files, then every matching Folder; return the surviving store and the
physical path handed to the background disk-removal job.  The SQL LIKE with
a trailing "%" is modelled as a plain string-prefix test (folder paths are
assumed to contain no "%" or "_" wildcard characters). -/
def folderIdsMatching (s : Store) (folder : Folder) : List Nat :=
  (s.folders.filter (fun g => folder.fullPath.isPrefixOf g.fullPath)).map
    Folder.id

def fileIdsMatching (s : Store) (folder : Folder) : List Nat :=
  (s.files.filter (fun fl =>
    (folderIdsMatching s folder).contains fl.folderId)).map FileRec.id

/-- the store left behind by the handler's batch: the three explicit
DELETE statements, plus the FolderTags rows of every deleted folder, which
`DELETE FROM Folders` removes through the `ON DELETE CASCADE` foreign key
on FolderTags(FolderId) declared in `ensureFolderTagsTable` (server.js
lines 104-110). -/
def deleteFolderStore (s : Store) (folder : Folder) : Store :=
  { s with
      fileTags := s.fileTags.filter (fun ft =>
        !((fileIdsMatching s folder).contains ft.1)),
      files := s.files.filter (fun fl =>
        !((folderIdsMatching s folder).contains fl.folderId)),
      folders := s.folders.filter (fun g =>
        !(folder.fullPath.isPrefixOf g.fullPath)),
      folderTags := s.folderTags.filter (fun gt =>
        !((folderIdsMatching s folder).contains gt.1)) }

def deleteFolderHandler (s : Store) (id : Nat) : Option (Store × List Char) :=
  match s.folders.find? (fun f => f.id == id) with
  | none => none
  | some folder =>
    some (deleteFolderStore s folder, fullPathToPhysical folder.fullPath)

/-- C10: when folder F is found, the handler synchronously removes from the
store exactly the Folder rows whose fullPath extends F's fullPath as a raw
string prefix — including non-descendant siblings such as "/root/AB" when
deleting "/root/A" — together with the Files owned by any such folder and
the FileTags of those files and — through the FolderTags foreign key's
ON DELETE CASCADE — the FolderTags rows of those same folders; everything
outside the prefix match survives unchanged, and the physical deletion is
only handed to a background job as a path, not performed here. -/
theorem c10_delete_folder_prefix (s : Store) (id : Nat) (folder : Folder)
    (hfind : s.folders.find? (fun f => f.id == id) = some folder) :
    deleteFolderHandler s id =
        some (deleteFolderStore s folder, fullPathToPhysical folder.fullPath) ∧
      (∀ g, g ∈ (deleteFolderStore s folder).folders ↔
        g ∈ s.folders ∧ folder.fullPath.isPrefixOf g.fullPath = false) ∧
      (∀ fl, fl ∈ (deleteFolderStore s folder).files ↔ fl ∈ s.files ∧
        ¬ ∃ g ∈ s.folders, folder.fullPath.isPrefixOf g.fullPath = true ∧
          g.id = fl.folderId) ∧
      (∀ ft, ft ∈ (deleteFolderStore s folder).fileTags ↔ ft ∈ s.fileTags ∧
        ¬ ∃ fl ∈ s.files, (∃ g ∈ s.folders,
            folder.fullPath.isPrefixOf g.fullPath = true ∧
            g.id = fl.folderId) ∧ fl.id = ft.1) ∧
      (∀ gt, gt ∈ (deleteFolderStore s folder).folderTags ↔
        gt ∈ s.folderTags ∧ ¬ ∃ g ∈ s.folders,
          folder.fullPath.isPrefixOf g.fullPath = true ∧ g.id = gt.1) := by
  refine ⟨?_, ?_, ?_, ?_, ?_⟩
  · simp [deleteFolderHandler, hfind]
  · intro g
    simp only [deleteFolderStore, List.mem_filter, Bool.not_eq_true']
  · intro fl
    simp only [deleteFolderStore, List.mem_filter, Bool.not_eq_true',
      and_congr_right_iff]
    intro _
    rw [Bool.eq_false_iff]
    refine not_congr ?_
    have hc : (folderIdsMatching s folder).contains fl.folderId = true ↔
        fl.folderId ∈ folderIdsMatching s folder := List.elem_iff
    rw [hc, folderIdsMatching, List.mem_map]
    constructor
    · rintro ⟨g, hg, hgid⟩
      have h2 := List.mem_filter.mp hg
      exact ⟨g, h2.1, h2.2, hgid⟩
    · rintro ⟨g, hg, hpre, hgid⟩
      exact ⟨g, List.mem_filter.mpr ⟨hg, hpre⟩, hgid⟩
  · intro ft
    simp only [deleteFolderStore, List.mem_filter, Bool.not_eq_true',
      and_congr_right_iff]
    intro _
    rw [Bool.eq_false_iff]
    refine not_congr ?_
    have hc : (fileIdsMatching s folder).contains ft.1 = true ↔
        ft.1 ∈ fileIdsMatching s folder := List.elem_iff
    have hcg : ∀ fid, (folderIdsMatching s folder).contains fid = true ↔
        fid ∈ folderIdsMatching s folder := fun _ => List.elem_iff
    rw [hc, fileIdsMatching, List.mem_map]
    constructor
    · rintro ⟨fl, hfl, hflid⟩
      have h2 := List.mem_filter.mp hfl
      obtain ⟨g, hg, hgid⟩ := List.mem_map.mp ((hcg fl.folderId).mp h2.2)
      have hg2 := List.mem_filter.mp hg
      exact ⟨fl, h2.1, ⟨g, hg2.1, hg2.2, hgid⟩, hflid⟩
    · rintro ⟨fl, hfl, ⟨g, hg, hpre, hgid⟩, hflid⟩
      refine ⟨fl, List.mem_filter.mpr ⟨hfl, ?_⟩, hflid⟩
      exact (hcg fl.folderId).mpr
        (List.mem_map.mpr ⟨g, List.mem_filter.mpr ⟨hg, hpre⟩, hgid⟩)
  · intro gt
    simp only [deleteFolderStore, List.mem_filter, Bool.not_eq_true',
      and_congr_right_iff]
    intro _
    rw [Bool.eq_false_iff]
    refine not_congr ?_
    have hc : (folderIdsMatching s folder).contains gt.1 = true ↔
        gt.1 ∈ folderIdsMatching s folder := List.elem_iff
    rw [hc, folderIdsMatching, List.mem_map]
    constructor
    · rintro ⟨g, hg, hgid⟩
      have h2 := List.mem_filter.mp hg
      exact ⟨g, h2.1, h2.2, hgid⟩
    · rintro ⟨g, hg, hpre, hgid⟩
      exact ⟨g, List.mem_filter.mpr ⟨hg, hpre⟩, hgid⟩

/-- a store holding root, folder "A", sibling folder "AB" (not a descendant
of "A"), one file inside "AB", a FileTag on that file and a FolderTag on
"AB". -/
def c10Store : Store :=
  ⟨[⟨1, ['r', 'o', 'o', 't'], none, ['/', 'r', 'o', 'o', 't']⟩,
    ⟨2, ['A'], some 1, ['/', 'r', 'o', 'o', 't', '/', 'A']⟩,
    ⟨3, ['A', 'B'], some 1, ['/', 'r', 'o', 'o', 't', '/', 'A', 'B']⟩],
   [⟨10, 3, ['f'], ['/', 'x', '/', 'f'], 1, octetStream⟩],
   [(10, 4)], [(3, 4)]⟩

def c10FolderA : Folder := ⟨2, ['A'], some 1, ['/', 'r', 'o', 'o', 't', '/', 'A']⟩

/-- C10 witness: deleting folder "A" (id 2) from `c10Store` removes the
sibling "/root/AB" as well — only root survives — and wipes AB's file, its
FileTag, and (by the FolderTags cascade) AB's FolderTag row. -/
theorem c10_delete_folder_witness :
    (deleteFolderStore c10Store c10FolderA).folders =
        [⟨1, ['r', 'o', 'o', 't'], none, ['/', 'r', 'o', 'o', 't']⟩] ∧
    (deleteFolderStore c10Store c10FolderA).files = [] ∧
    (deleteFolderStore c10Store c10FolderA).fileTags = [] ∧
    (deleteFolderStore c10Store c10FolderA).folderTags = [] ∧
    deleteFolderHandler c10Store 2 =
      some (deleteFolderStore c10Store c10FolderA,
        fullPathToPhysical c10FolderA.fullPath) := by
  have h := c10_delete_folder_prefix c10Store 2 c10FolderA (by decide)
  exact ⟨by decide, by decide, by decide, by decide, h.1⟩

/-! ## C8: folder creation invariants -/

/-- the root folder's fullPath "/root" (ensureRootFolder, server.js 81-94). -/
def rootPath : List Char := ['/', 'r', 'o', 'o', 't']

/-- JS `!name || !name.trim()`: empty or blank-only name is rejected. -/
def jsBlank (name : List Char) : Bool :=
  name.all (fun c => c == ' ')

/-- a fresh Folders identity value, modelling the SQL identity column. -/
def freshFolderId (s : Store) : Nat :=
  (s.folders.map Folder.id).foldr max 0 + 1

/-- model of POST /api/folders (server.js lines 346-393): reject blank
names; `if (parentId)` (JS truthiness, so id 0 counts as absent) looks the
parent up and 400s when missing; the row is inserted with
fullPath = parentPath + "/" + name, where parentPath defaults to "/root"
with a NULL ParentId when no (truthy) parentId was sent.  Returns the new
store and the inserted row, `none` for the 400 responses. -/
def postFolders (s : Store) (name : List Char) (parentId : Option Nat) :
    Option (Store × Folder) :=
  if jsBlank name then none
  else
    match parentId with
    | none =>
      some ({ s with folders := s.folders ++
          [⟨freshFolderId s, name, none, rootPath ++ '/' :: name⟩] },
        ⟨freshFolderId s, name, none, rootPath ++ '/' :: name⟩)
    | some pid =>
      if pid == 0 then
        some ({ s with folders := s.folders ++
            [⟨freshFolderId s, name, none, rootPath ++ '/' :: name⟩] },
          ⟨freshFolderId s, name, none, rootPath ++ '/' :: name⟩)
      else
        match s.folders.find? (fun p => p.id == pid) with
        | none => none
        | some p =>
          some ({ s with folders := s.folders ++
              [⟨freshFolderId s, name, some p.id,
                p.fullPath ++ '/' :: name⟩] },
            ⟨freshFolderId s, name, some p.id, p.fullPath ++ '/' :: name⟩)

/-- `segment.replace(/[\/\\]/g, "")` in ensureFolderChain. -/
def stripSeps (seg : List Char) : List Char :=
  seg.filter (fun c => !(c == '/') && !(c == '\\'))

/-- model of `ensureFolderChain(baseId, basePath, subDirs)` (server.js lines
772-812): walk the segments; an empty segment is skipped; otherwise the
separator-stripped name is looked up under the current folder and, when
absent, inserted with fullPath = currentPath + "/" + name; the walk then
advances to the found or inserted child. -/
def ensureFolderChain (s : Store) (baseId : Nat) (basePath : List Char) :
    List (List Char) → Store × Nat × List Char
  | [] => (s, baseId, basePath)
  | seg :: rest =>
    if seg.isEmpty then ensureFolderChain s baseId basePath rest
    else
      match s.folders.find? (fun x =>
          x.parentId == some baseId && x.name == stripSeps seg) with
      | some f => ensureFolderChain s f.id f.fullPath rest
      | none =>
        ensureFolderChain
          { s with folders := s.folders ++
              [⟨freshFolderId s, stripSeps seg, some baseId,
                basePath ++ '/' :: stripSeps seg⟩] }
          (freshFolderId s) (basePath ++ '/' :: stripSeps seg) rest

/-- folder ids are pairwise distinct (SQL primary key). -/
abbrev idsNodup (s : Store) : Prop := (s.folders.map Folder.id).Nodup

/-- every non-null parentId references some folder row. -/
abbrev parentRefs (s : Store) : Prop :=
  ∀ f ∈ s.folders, ∀ pid, f.parentId = some pid →
    pid ∈ s.folders.map Folder.id

/-- fullPath is always the parent folder's fullPath + "/" + own name. -/
abbrev childLink (s : Store) : Prop :=
  ∀ f ∈ s.folders, ∀ pid, f.parentId = some pid →
    ∀ p ∈ s.folders, p.id = pid → f.fullPath = p.fullPath ++ '/' :: f.name

/-- the set of fullPaths is ancestor-closed: the prefix of a fullPath up to
its last slash is empty (a top-level path) or some folder's fullPath. -/
abbrev ancestorClosed (s : Store) : Prop :=
  ∀ f ∈ s.folders, parentPath f.fullPath = [] ∨
    ∃ g ∈ s.folders, g.fullPath = parentPath f.fullPath

/-- the folder-tree well-formedness invariant of the claim. -/
abbrev StoreWF (s : Store) : Prop :=
  idsNodup s ∧ parentRefs s ∧ childLink s ∧ ancestorClosed s

theorem le_foldr_max (x : Nat) (l : List Nat) (h : x ∈ l) :
    x ≤ l.foldr max 0 := by
  induction l with
  | nil => cases h
  | cons a t ih =>
    show x ≤ max a (t.foldr max 0)
    rcases List.mem_cons.mp h with rfl | h2
    · exact le_max_left _ _
    · exact le_trans (ih h2) (le_max_right _ _)

theorem freshFolderId_fresh (s : Store) :
    freshFolderId s ∉ s.folders.map Folder.id := by
  intro h
  have h2 := le_foldr_max _ _ h
  rw [freshFolderId] at h2
  omega

/-- inserting a fresh-id row whose parent link and ancestor prefix are
backed by existing rows preserves the well-formedness invariant. -/
theorem insertFresh_wf (s : Store) (nf : Folder) (hwf : StoreWF s)
    (hid : nf.id = freshFolderId s)
    (hpar : ∀ pid, nf.parentId = some pid →
      ∃ p ∈ s.folders, p.id = pid ∧ nf.fullPath = p.fullPath ++ '/' :: nf.name)
    (hclose : parentPath nf.fullPath = [] ∨
      ∃ g ∈ s.folders, g.fullPath = parentPath nf.fullPath) :
    StoreWF { s with folders := s.folders ++ [nf] } := by
  obtain ⟨hnd, href, hlink, hanc⟩ := hwf
  have hfresh : nf.id ∉ s.folders.map Folder.id := by
    rw [hid]
    exact freshFolderId_fresh s
  refine ⟨?_, ?_, ?_, ?_⟩
  · show ((s.folders ++ [nf]).map Folder.id).Nodup
    rw [List.map_append]
    rw [List.nodup_append]
    refine ⟨hnd, List.nodup_singleton _, ?_⟩
    intro a ha hb
    rw [List.map_singleton, List.mem_singleton] at hb
    subst hb
    exact hfresh ha
  · intro f hf pid hpid
    rw [List.map_append]
    have hf0 : f ∈ s.folders ++ [nf] := hf
    rcases List.mem_append.mp hf0 with hfL | hfR
    · exact List.mem_append_left _ (href f hfL pid hpid)
    · have hfnf : f = nf := List.mem_singleton.mp hfR
      obtain ⟨p, hp, hpid2, -⟩ := hpar pid (by rw [← hfnf]; exact hpid)
      refine List.mem_append_left _ ?_
      rw [← hpid2]
      exact List.mem_map.mpr ⟨p, hp, rfl⟩
  · intro f hf pid hpid pr hpr hprid
    have hf0 : f ∈ s.folders ++ [nf] := hf
    have hpr0 : pr ∈ s.folders ++ [nf] := hpr
    rcases List.mem_append.mp hf0 with hfL | hfR
    · rcases List.mem_append.mp hpr0 with hprL | hprR
      · exact hlink f hfL pid hpid pr hprL hprid
      · exfalso
        have hprnf : pr = nf := List.mem_singleton.mp hprR
        have hpidnf : pid = nf.id := by rw [← hprid, hprnf]
        have h2 := href f hfL pid hpid
        rw [hpidnf] at h2
        exact hfresh h2
    · have hfnf : f = nf := List.mem_singleton.mp hfR
      obtain ⟨p, hp, hpid2, hpath⟩ := hpar pid (by rw [← hfnf]; exact hpid)
      rcases List.mem_append.mp hpr0 with hprL | hprR
      · have heq : pr = p := by
          have hinj := List.inj_on_of_nodup_map (f := Folder.id) hnd
          exact hinj hprL hp (by rw [hprid, hpid2])
        rw [hfnf, hpath, heq]
      · exfalso
        have hprnf : pr = nf := List.mem_singleton.mp hprR
        have h2 : pid ∈ s.folders.map Folder.id := by
          rw [← hpid2]
          exact List.mem_map.mpr ⟨p, hp, rfl⟩
        have hpidnf : pid = nf.id := by rw [← hprid, hprnf]
        rw [hpidnf] at h2
        exact hfresh h2
  · intro f hf
    have hf0 : f ∈ s.folders ++ [nf] := hf
    rcases List.mem_append.mp hf0 with hfL | hfR
    · rcases hanc f hfL with h | ⟨g, hg, hgp⟩
      · exact Or.inl h
      · exact Or.inr ⟨g, List.mem_append_left _ hg, hgp⟩
    · have hfnf : f = nf := List.mem_singleton.mp hfR
      rw [hfnf]
      rcases hclose with h | ⟨g, hg, hgp⟩
      · exact Or.inl h
      · exact Or.inr ⟨g, List.mem_append_left _ hg, hgp⟩

theorem postFolders_wf (s : Store) (name : List Char) (parentId : Option Nat)
    (s2 : Store) (f : Folder) (hwf : StoreWF s)
    (hroot : ∃ r ∈ s.folders, r.fullPath = rootPath)
    (hname : ∀ c ∈ name, c ≠ '/')
    (hpost : postFolders s name parentId = some (s2, f)) :
    StoreWF s2 := by
  obtain ⟨r, hr, hrpath⟩ := hroot
  cases hblank : jsBlank name with
  | true => simp [postFolders, hblank] at hpost
  | false =>
    have hins : StoreWF { s with folders := s.folders ++
        [⟨freshFolderId s, name, none, rootPath ++ '/' :: name⟩] } := by
      apply insertFresh_wf s _ hwf rfl
      · intro pid hpid
        exact Option.noConfusion hpid
      · right
        refine ⟨r, hr, ?_⟩
        rw [hrpath]
        exact (parentPath_append rootPath name hname).symm
    cases parentId with
    | none =>
      simp only [postFolders, hblank, Bool.false_eq_true, if_false,
        Option.some.injEq, Prod.mk.injEq] at hpost
      rw [← hpost.1]
      exact hins
    | some pid =>
      cases hpid0 : pid == 0 with
      | true =>
        simp only [postFolders, hblank, Bool.false_eq_true, if_false, hpid0,
          if_true, Option.some.injEq, Prod.mk.injEq] at hpost
        rw [← hpost.1]
        exact hins
      | false =>
        cases hfind : s.folders.find? (fun p => p.id == pid) with
        | none =>
          simp [postFolders, hblank, hpid0, hfind] at hpost
        | some p =>
          simp only [postFolders, hblank, Bool.false_eq_true, if_false, hpid0,
            hfind, Option.some.injEq, Prod.mk.injEq] at hpost
          rw [← hpost.1]
          apply insertFresh_wf s _ hwf rfl
          · intro pid2 hpid2
            have hpe : p.id = pid2 := Option.some.inj hpid2
            exact ⟨p, List.mem_of_find?_eq_some hfind, hpe, rfl⟩
          · right
            refine ⟨p, List.mem_of_find?_eq_some hfind, ?_⟩
            exact (parentPath_append p.fullPath name hname).symm

theorem stripSeps_noslash (seg : List Char) : ∀ c ∈ stripSeps seg, c ≠ '/' := by
  intro c hc heq
  have h2 := List.of_mem_filter hc
  rw [heq] at h2
  simp at h2

theorem ensureFolderChain_wf (segs : List (List Char)) :
    ∀ s baseId basePath, StoreWF s →
      (∃ b ∈ s.folders, b.id = baseId ∧ b.fullPath = basePath) →
      StoreWF (ensureFolderChain s baseId basePath segs).1 ∧
      (∃ b ∈ (ensureFolderChain s baseId basePath segs).1.folders,
        b.id = (ensureFolderChain s baseId basePath segs).2.1 ∧
        b.fullPath = (ensureFolderChain s baseId basePath segs).2.2) := by
  induction segs with
  | nil =>
    intro s baseId basePath hwf hbase
    exact ⟨hwf, hbase⟩
  | cons seg rest ih =>
    intro s baseId basePath hwf hbase
    cases hseg : seg.isEmpty with
    | true =>
      have hred : ensureFolderChain s baseId basePath (seg :: rest) =
          ensureFolderChain s baseId basePath rest := by
        simp [ensureFolderChain, hseg]
      rw [hred]
      exact ih s baseId basePath hwf hbase
    | false =>
      cases hfind : s.folders.find? (fun x =>
          x.parentId == some baseId && x.name == stripSeps seg) with
      | some fdr =>
        have hred : ensureFolderChain s baseId basePath (seg :: rest) =
            ensureFolderChain s fdr.id fdr.fullPath rest := by
          simp [ensureFolderChain, hseg, hfind]
        rw [hred]
        exact ih s fdr.id fdr.fullPath hwf
          ⟨fdr, List.mem_of_find?_eq_some hfind, rfl, rfl⟩
      | none =>
        obtain ⟨b, hb, hbid, hbpath⟩ := hbase
        have hname := stripSeps_noslash seg
        have hwf2 : StoreWF { s with folders := s.folders ++
            [⟨freshFolderId s, stripSeps seg, some baseId,
              basePath ++ '/' :: stripSeps seg⟩] } := by
          apply insertFresh_wf s _ hwf rfl
          · intro pid hpid
            have hpe : baseId = pid := Option.some.inj hpid
            refine ⟨b, hb, ?_, ?_⟩
            · rw [hbid, hpe]
            · show basePath ++ '/' :: stripSeps seg = _
              rw [hbpath]
          · right
            refine ⟨b, hb, ?_⟩
            rw [hbpath]
            exact (parentPath_append basePath (stripSeps seg) hname).symm
        have hred : ensureFolderChain s baseId basePath (seg :: rest) =
            ensureFolderChain
              { s with folders := s.folders ++
                  [⟨freshFolderId s, stripSeps seg, some baseId,
                    basePath ++ '/' :: stripSeps seg⟩] }
              (freshFolderId s) (basePath ++ '/' :: stripSeps seg) rest := by
          simp [ensureFolderChain, hseg, hfind]
        rw [hred]
        apply ih _ _ _ hwf2
        refine ⟨⟨freshFolderId s, stripSeps seg, some baseId,
          basePath ++ '/' :: stripSeps seg⟩, ?_, rfl, rfl⟩
        exact List.mem_append_right _ (List.mem_singleton_self _)

/-- C8 (amended): both folder-creating operations keep the folder tree
well-formed — distinct ids, parent references resolving to existing rows,
fullPath = parent fullPath + "/" + name wherever a parent link exists, and
ancestor-closedness of the fullPath set — for the chain resolver
unconditionally (it strips path separators from each segment), and for
POST /api/folders for every accepted name that contains no '/'. -/
theorem c8_folder_creation_invariants :
    (∀ s name parentId s2 f, StoreWF s →
      (∃ r ∈ s.folders, r.fullPath = rootPath) →
      (∀ c ∈ name, c ≠ '/') →
      postFolders s name parentId = some (s2, f) →
      StoreWF s2) ∧
    (∀ segs s baseId basePath, StoreWF s →
      (∃ b ∈ s.folders, b.id = baseId ∧ b.fullPath = basePath) →
      StoreWF (ensureFolderChain s baseId basePath segs).1) :=
  ⟨fun s name parentId s2 f hwf hroot hname hpost =>
    postFolders_wf s name parentId s2 f hwf hroot hname hpost,
   fun segs s baseId basePath hwf hbase =>
    (ensureFolderChain_wf segs s baseId basePath hwf hbase).1⟩

/-- a store holding only the root folder. -/
def c8Base : Store := ⟨[⟨1, ['r', 'o', 'o', 't'], none, rootPath⟩], [], [], []⟩

/-- C8, counterexample: the name "a/b" passes the only validation POST
/api/folders has (non-blank), and inserting it under root yields fullPath
"/root/a/b" whose prefix "/root/a" is no folder's fullPath: the
ancestor-closure half of the claimed invariant is broken by an accepted
name. -/
theorem c8_slash_name_counterexample :
    jsBlank ['a', '/', 'b'] = false ∧
    StoreWF c8Base ∧
    postFolders c8Base ['a', '/', 'b'] (some 1) =
      some (⟨[⟨1, ['r', 'o', 'o', 't'], none, rootPath⟩,
          ⟨2, ['a', '/', 'b'], some 1, rootPath ++ '/' :: ['a', '/', 'b']⟩],
         [], [], []⟩,
        ⟨2, ['a', '/', 'b'], some 1, rootPath ++ '/' :: ['a', '/', 'b']⟩) ∧
    ¬ ancestorClosed ⟨[⟨1, ['r', 'o', 'o', 't'], none, rootPath⟩,
        ⟨2, ['a', '/', 'b'], some 1, rootPath ++ '/' :: ['a', '/', 'b']⟩],
       [], [], []⟩ := by
  decide

/-- C8 witness: the amended invariant theorem applied to creating "a" under
root via POST and the chain "d"/"e" via the upload resolver. -/
theorem c8_invariants_witness :
    StoreWF ⟨[⟨1, ['r', 'o', 'o', 't'], none, rootPath⟩,
      ⟨2, ['a'], some 1, rootPath ++ '/' :: ['a']⟩], [], [], []⟩ ∧
    StoreWF (ensureFolderChain c8Base 1 rootPath [['d'], ['e']]).1 := by
  have h := c8_folder_creation_invariants
  constructor
  · exact h.1 c8Base ['a'] (some 1)
      ⟨[⟨1, ['r', 'o', 'o', 't'], none, rootPath⟩,
        ⟨2, ['a'], some 1, rootPath ++ '/' :: ['a']⟩], [], [], []⟩
      ⟨2, ['a'], some 1, rootPath ++ '/' :: ['a']⟩
      (by decide) (by decide) (by decide) (by decide)
  · exact h.2 [['d'], ['e']] c8Base 1 rootPath (by decide) (by decide)

/-! ## C4/C5: the background job queue (server.js lines 22-48) -/

/-- a queued background job: an identity and whether executing it raises. -/
structure QJob where
  id : Nat
  fails : Bool
deriving DecidableEq

/-- the JobQueue state: `jobs` and `processing` mirror the class fields;
`loops` is the stack of active `process()` drain loops (`some j` = a loop
awaiting `job()`, `none` = a loop between jobs); `completed` records the
jobs whose execution finished, in order; `failed` records the ids whose
execution raised (caught and logged by the try/catch). -/
structure QueueState where
  jobs : List QJob
  processing : Bool
  loops : List (Option QJob)
  completed : List QJob
  failed : List Nat
deriving DecidableEq

/-- the atomic events of the queue: `enqueue` is a call to
`enqueue(fn)` (push + `process()`); `take` is one drain-loop iteration
shifting the head job and calling it; `settle` is the awaited job
finishing (or raising: the catch logs it and the loop continues); and
`exitLoop` is the while-loop ending on an empty queue and clearing
`processing`.  These are the suspension points of the single-threaded
event loop. -/
inductive QAct
  | enqueue (j : QJob)
  | take
  | settle
  | exitLoop
deriving DecidableEq

/-- one step of the queue: a faithful small-step rendering of `enqueue` /
`process` — in particular `enqueue` only starts a new drain loop when
`this.processing` is false, exactly like the early return in `process()`. -/
def qStep (s : QueueState) : QAct → QueueState
  | .enqueue j =>
    let s2 : QueueState := { s with jobs := s.jobs ++ [j] }
    if s2.processing || s2.jobs.isEmpty then s2
    else { s2 with processing := true, loops := s2.loops ++ [none] }
  | .take =>
    match s.loops, s.jobs with
    | none :: rest, jb :: js =>
      { s with loops := some jb :: rest, jobs := js }
    | _, _ => s
  | .settle =>
    match s.loops with
    | some jb :: rest =>
      { s with loops := none :: rest,
               completed := s.completed ++ [jb],
               failed := if jb.fails then s.failed ++ [jb.id] else s.failed }
    | _ => s
  | .exitLoop =>
    match s.loops, s.jobs with
    | none :: rest, [] => { s with loops := rest, processing := false }
    | _, _ => s

def qInit : QueueState := ⟨[], false, [], [], []⟩

def runQueue (acts : List QAct) : QueueState := acts.foldl qStep qInit

/-- the jobs an action sequence enqueues, in order. -/
def enqueuedJobs (acts : List QAct) : List QJob :=
  acts.filterMap (fun a => match a with | QAct.enqueue j => some j | _ => none)

/-- the job a single action enqueues. -/
def enqNew : QAct → List QJob
  | QAct.enqueue j => [j]
  | _ => []

/-- the jobs currently being executed by some drain loop. -/
def inflight (s : QueueState) : List QJob := s.loops.filterMap id

/-- the reachability invariant of the queue: at most one drain loop is ever
active (hence at most one job executing), the `processing` flag is set
exactly while a loop is active, completed + executing + pending jobs are
precisely the enqueued jobs in enqueue order, and the failure log holds
exactly the ids of the completed jobs that raised. -/
def QInv (s : QueueState) (enq : List QJob) : Prop :=
  s.loops.length ≤ 1 ∧
  (s.processing = true ↔ s.loops ≠ []) ∧
  s.completed ++ inflight s ++ s.jobs = enq ∧
  s.failed = (s.completed.filter (fun j => j.fails)).map QJob.id

theorem qInv_init : QInv qInit [] := by
  refine ⟨by decide, by decide, rfl, rfl⟩

theorem qInv_step (s : QueueState) (enq : List QJob) (a : QAct)
    (h : QInv s enq) : QInv (qStep s a) (enq ++ enqNew a) := by
  obtain ⟨jobs, proc, loops, comp, fl⟩ := s
  obtain ⟨h1, h2, h3, h4⟩ := h
  cases a with
  | enqueue j =>
    cases proc with
    | true =>
      have hq : qStep ⟨jobs, true, loops, comp, fl⟩ (QAct.enqueue j) =
          ⟨jobs ++ [j], true, loops, comp, fl⟩ := by
        simp [qStep]
      rw [hq]
      refine ⟨h1, h2, ?_, h4⟩
      show comp ++ inflight ⟨jobs, true, loops, comp, fl⟩ ++ (jobs ++ [j]) =
        enq ++ enqNew (QAct.enqueue j)
      rw [← h3]
      simp [enqNew, inflight]
    | false =>
      have hl : loops = [] := by
        by_contra hne
        have hcontra := h2.mpr hne
        simp at hcontra
      subst hl
      have hq : qStep ⟨jobs, false, [], comp, fl⟩ (QAct.enqueue j) =
          ⟨jobs ++ [j], true, [none], comp, fl⟩ := by
        simp [qStep]
      rw [hq]
      refine ⟨by simp, by simp, ?_, h4⟩
      show comp ++ inflight ⟨jobs ++ [j], true, [none], comp, fl⟩ ++
          (jobs ++ [j]) = enq ++ enqNew (QAct.enqueue j)
      rw [← h3]
      simp [enqNew, inflight]
  | take =>
    cases loops with
    | nil =>
      have hq : qStep ⟨jobs, proc, [], comp, fl⟩ QAct.take =
          ⟨jobs, proc, [], comp, fl⟩ := by
        simp [qStep]
      rw [hq]
      refine ⟨h1, h2, by simpa [enqNew] using h3, h4⟩
    | cons o rest =>
      have hrest : rest = [] := by
        have hlen : (o :: rest).length ≤ 1 := h1
        rw [List.length_cons] at hlen
        have hz : rest.length = 0 := by omega
        exact List.eq_nil_of_length_eq_zero hz
      subst hrest
      cases o with
      | none =>
        cases jobs with
        | nil =>
          have hq : qStep ⟨[], proc, [none], comp, fl⟩ QAct.take =
              ⟨[], proc, [none], comp, fl⟩ := by
            simp [qStep]
          rw [hq]
          refine ⟨h1, h2, by simpa [enqNew] using h3, h4⟩
        | cons jb js =>
          have hq : qStep ⟨jb :: js, proc, [none], comp, fl⟩ QAct.take =
              ⟨js, proc, [some jb], comp, fl⟩ := by
            simp [qStep]
          rw [hq]
          refine ⟨by simp, by simpa using h2, ?_, h4⟩
          show comp ++ inflight ⟨js, proc, [some jb], comp, fl⟩ ++ js =
            enq ++ enqNew QAct.take
          rw [← h3]
          simp [enqNew, inflight]
      | some jb =>
        have hq : qStep ⟨jobs, proc, [some jb], comp, fl⟩ QAct.take =
            ⟨jobs, proc, [some jb], comp, fl⟩ := by
          simp [qStep]
        rw [hq]
        refine ⟨h1, h2, by simpa [enqNew] using h3, h4⟩
  | settle =>
    cases loops with
    | nil =>
      have hq : qStep ⟨jobs, proc, [], comp, fl⟩ QAct.settle =
          ⟨jobs, proc, [], comp, fl⟩ := by
        simp [qStep]
      rw [hq]
      refine ⟨h1, h2, by simpa [enqNew] using h3, h4⟩
    | cons o rest =>
      have hrest : rest = [] := by
        have hlen : (o :: rest).length ≤ 1 := h1
        rw [List.length_cons] at hlen
        have hz : rest.length = 0 := by omega
        exact List.eq_nil_of_length_eq_zero hz
      subst hrest
      cases o with
      | none =>
        have hq : qStep ⟨jobs, proc, [none], comp, fl⟩ QAct.settle =
            ⟨jobs, proc, [none], comp, fl⟩ := by
          simp [qStep]
        rw [hq]
        refine ⟨h1, h2, by simpa [enqNew] using h3, h4⟩
      | some jb =>
        have hq : qStep ⟨jobs, proc, [some jb], comp, fl⟩ QAct.settle =
            ⟨jobs, proc, [none], comp ++ [jb],
              if jb.fails then fl ++ [jb.id] else fl⟩ := by
          simp [qStep]
        rw [hq]
        refine ⟨by simp, by simpa using h2, ?_, ?_⟩
        · show (comp ++ [jb]) ++
            inflight ⟨jobs, proc, [none], comp ++ [jb], _⟩ ++ jobs =
            enq ++ enqNew QAct.settle
          rw [← h3]
          simp [enqNew, inflight]
        · show (if jb.fails then fl ++ [jb.id] else fl) =
            ((comp ++ [jb]).filter (fun j => j.fails)).map QJob.id
          rw [List.filter_append, List.map_append, ← h4]
          cases hf : jb.fails with
          | true => simp [List.filter_cons, hf]
          | false => simp [List.filter_cons, hf]
  | exitLoop =>
    cases loops with
    | nil =>
      have hq : qStep ⟨jobs, proc, [], comp, fl⟩ QAct.exitLoop =
          ⟨jobs, proc, [], comp, fl⟩ := by
        simp [qStep]
      rw [hq]
      refine ⟨h1, h2, by simpa [enqNew] using h3, h4⟩
    | cons o rest =>
      have hrest : rest = [] := by
        have hlen : (o :: rest).length ≤ 1 := h1
        rw [List.length_cons] at hlen
        have hz : rest.length = 0 := by omega
        exact List.eq_nil_of_length_eq_zero hz
      subst hrest
      cases o with
      | some jb =>
        have hq : qStep ⟨jobs, proc, [some jb], comp, fl⟩ QAct.exitLoop =
            ⟨jobs, proc, [some jb], comp, fl⟩ := by
          simp [qStep]
        rw [hq]
        refine ⟨h1, h2, by simpa [enqNew] using h3, h4⟩
      | none =>
        cases jobs with
        | cons jb js =>
          have hq : qStep ⟨jb :: js, proc, [none], comp, fl⟩ QAct.exitLoop =
              ⟨jb :: js, proc, [none], comp, fl⟩ := by
            simp [qStep]
          rw [hq]
          refine ⟨h1, h2, by simpa [enqNew] using h3, h4⟩
        | nil =>
          have hq : qStep ⟨[], proc, [none], comp, fl⟩ QAct.exitLoop =
              ⟨[], false, [], comp, fl⟩ := by
            simp [qStep]
          rw [hq]
          refine ⟨by simp, by simp, ?_, h4⟩
          show comp ++ inflight ⟨[], false, [], comp, fl⟩ ++ [] =
            enq ++ enqNew QAct.exitLoop
          rw [← h3]
          simp [enqNew, inflight]

theorem runQueue_inv (acts : List QAct) :
    QInv (runQueue acts) (enqueuedJobs acts) := by
  suffices hgen : ∀ (l : List QAct) (s : QueueState) (enq : List QJob),
      QInv s enq → QInv (l.foldl qStep s) (enq ++ enqueuedJobs l) by
    have h := hgen acts qInit [] qInv_init
    simpa [runQueue] using h
  intro l
  induction l with
  | nil =>
    intro s enq h
    simpa [enqueuedJobs] using h
  | cons a rest ih =>
    intro s enq h
    rw [List.foldl_cons]
    have h2 := ih (qStep s a) (enq ++ enqNew a) (qInv_step s enq a h)
    have he : enqueuedJobs (a :: rest) = enqNew a ++ enqueuedJobs rest := by
      cases a <;> simp [enqueuedJobs, enqNew]
    rw [he, ← List.append_assoc]
    exact h2

/-- an enqueue arriving on a fully drained queue (flag cleared, no pending
jobs, no active loop) restarts draining: the loop started by `process()`
picks the new job up and completes it. -/
theorem qRestart (s : QueueState) (j : QJob) (hp : s.processing = false)
    (hj : s.jobs = []) (hl : s.loops = []) :
    (qStep (qStep (qStep s (QAct.enqueue j)) QAct.take) QAct.settle).completed
      = s.completed ++ [j] := by
  obtain ⟨jobs, proc, loops, comp, fl⟩ := s
  have hp2 : proc = false := hp
  have hj2 : jobs = [] := hj
  have hl2 : loops = [] := hl
  subst hp2 hj2 hl2
  simp [qStep]

/-- C4: over every interleaving of enqueues with the queue's internal steps,
at most one drain loop is active so at most one job is ever executing (and,
each `take`/`settle` pair bracketing a full job execution, a job finishes
before the next is shifted); the completed, executing and pending jobs are
exactly the enqueued jobs in enqueue order (FIFO, no reordering, no loss,
no duplication); and after draining has stopped an enqueue restarts the
drain loop, which completes the new job. -/
theorem c4_queue_serialization (acts : List QAct) (j : QJob) :
    (inflight (runQueue acts)).length ≤ 1 ∧
    (runQueue acts).completed ++ inflight (runQueue acts) ++
      (runQueue acts).jobs = enqueuedJobs acts ∧
    ((runQueue acts).processing = false → (runQueue acts).jobs = [] →
      (qStep (qStep (qStep (runQueue acts) (QAct.enqueue j)) QAct.take)
          QAct.settle).completed = (runQueue acts).completed ++ [j]) := by
  obtain ⟨h1, h2, h3, h4⟩ := runQueue_inv acts
  refine ⟨?_, h3, ?_⟩
  · exact le_trans (List.length_filterMap_le _ _) h1
  · intro hp hj
    have hl : (runQueue acts).loops = [] := by
      by_contra hne
      have hcontra := h2.mpr hne
      rw [hp] at hcontra
      exact Bool.false_ne_true hcontra
    exact qRestart (runQueue acts) j hp hj hl

/-- C4 witness: the restart clause applied to the initially drained queue
and one concrete job. -/
theorem c4_queue_serialization_witness :
    (qStep (qStep (qStep (runQueue []) (QAct.enqueue ⟨5, true⟩)) QAct.take)
        QAct.settle).completed = (runQueue []).completed ++ [⟨5, true⟩] :=
  (c4_queue_serialization [] ⟨5, true⟩).2.2 rfl rfl

/-- the internal steps that fully drain `n` pending jobs: one `take` and
one `settle` per job, then the loop exit. -/
def drainActs : Nat → List QAct
  | 0 => [QAct.exitLoop]
  | n + 1 => QAct.take :: QAct.settle :: drainActs n

theorem foldl_enqueue_processing (js : List QJob) :
    ∀ s : QueueState, s.processing = true →
      (js.map QAct.enqueue).foldl qStep s = { s with jobs := s.jobs ++ js } := by
  induction js with
  | nil => intro s _; simp
  | cons j rest ih =>
    intro s hp
    obtain ⟨jobs, proc, loops, comp, fl⟩ := s
    have hp2 : proc = true := hp
    subst hp2
    rw [List.map_cons, List.foldl_cons]
    have hq : qStep ⟨jobs, true, loops, comp, fl⟩ (QAct.enqueue j) =
        ⟨jobs ++ [j], true, loops, comp, fl⟩ := by
      simp [qStep]
    rw [hq, ih ⟨jobs ++ [j], true, loops, comp, fl⟩ rfl]
    simp

theorem drain_run (l : List QJob) :
    ∀ c : List QJob, ∀ fl : List Nat,
      (drainActs l.length).foldl qStep ⟨l, true, [none], c, fl⟩ =
        ⟨[], false, [], c ++ l,
          fl ++ (l.filter (fun j => j.fails)).map QJob.id⟩ := by
  induction l with
  | nil =>
    intro c fl
    simp [drainActs, qStep]
  | cons j rest ih =>
    intro c fl
    show (QAct.take :: QAct.settle :: drainActs rest.length).foldl qStep
        ⟨j :: rest, true, [none], c, fl⟩ = _
    rw [List.foldl_cons, List.foldl_cons]
    have h1 : qStep ⟨j :: rest, true, [none], c, fl⟩ QAct.take =
        ⟨rest, true, [some j], c, fl⟩ := by
      simp [qStep]
    have h2 : qStep ⟨rest, true, [some j], c, fl⟩ QAct.settle =
        ⟨rest, true, [none], c ++ [j],
          if j.fails then fl ++ [j.id] else fl⟩ := by
      simp [qStep]
    rw [h1, h2, ih (c ++ [j]) (if j.fails then fl ++ [j.id] else fl)]
    cases hf : j.fails with
    | true => simp [List.filter_cons, hf]
    | false => simp [List.filter_cons, hf]

/-- C5: enqueue any batch of jobs, any subset of which raise, and let the
queue drain.  Every job — the failing ones included — is executed exactly
once and to completion in enqueue order, the raised errors are exactly the
caught-and-logged ones (no retry, no escalation: each failing job is still
recorded as completed), and the queue ends empty with the flag cleared, not
in any terminal failed state; `qStep` being total, nothing ever propagates
to the caller of enqueue. -/
theorem c5_job_errors_contained (js : List QJob) :
    (runQueue (js.map QAct.enqueue ++ drainActs js.length)).completed = js ∧
    (runQueue (js.map QAct.enqueue ++ drainActs js.length)).failed =
      (js.filter (fun j => j.fails)).map QJob.id ∧
    (runQueue (js.map QAct.enqueue ++ drainActs js.length)).jobs = [] ∧
    (runQueue (js.map QAct.enqueue ++ drainActs js.length)).processing =
      false := by
  cases js with
  | nil =>
    refine ⟨rfl, rfl, rfl, rfl⟩
  | cons j rest =>
    have hstart : (runQueue ((j :: rest).map QAct.enqueue ++
        drainActs (j :: rest).length)) =
        (drainActs (j :: rest).length).foldl qStep
          ⟨j :: rest, true, [none], [], []⟩ := by
      rw [runQueue, List.foldl_append]
      congr 1
      rw [List.map_cons, List.foldl_cons]
      have hq : qStep qInit (QAct.enqueue j) = ⟨[j], true, [none], [], []⟩ := by
        simp [qStep, qInit]
      rw [hq, foldl_enqueue_processing rest ⟨[j], true, [none], [], []⟩ rfl]
      simp
    rw [hstart, drain_run (j :: rest) [] []]
    refine ⟨by simp, by simp, rfl, rfl⟩

/-! ## C9: folder rename, PATCH /api/folder/:id (app.js lines 2462-2524) -/

/-- the parent path used to build the renamed fullPath: "/root" by default,
the parent row's FullPath when the folder has a ParentId that resolves. -/
def renameParentFull (s : Store) (folder : Folder) : List Char :=
  match folder.parentId with
  | none => rootPath
  | some pid =>
    match s.folders.find? (fun x => x.id == pid) with
    | some p => p.fullPath
    | none => rootPath

/-- the Folders rows after the handler's batch: the first UPDATE rewrites
`FullPath = @NewPrefix + SUBSTRING(FullPath, LEN(@OldPrefix) + 1, 2000)`
for every row with `FullPath LIKE @OldPrefix + '%'` (a raw prefix match
with no '/' boundary, so non-descendant siblings such as "/root/AB" are
rewritten too; the 2000-character SUBSTRING cap is immaterial for paths
within the 1000-character column); the second UPDATE sets the Name of the
renamed row. -/
def patchFolderRows (s : Store) (id : Nat) (name : List Char)
    (folder : Folder) : List Folder :=
  (s.folders.map (fun g =>
    if folder.fullPath.isPrefixOf g.fullPath then
      { g with fullPath := (renameParentFull s folder ++ '/' :: name) ++
          g.fullPath.drop folder.fullPath.length }
    else g)).map (fun g => if g.id == id then { g with name := name } else g)

/-- model of PATCH /api/folder/:id (app.js lines 2462-2524): reject id 0
(JS falsiness) and blank names, 404 on a missing row, then rewrite the
fullPaths and the name as in `patchFolderRows`; the disk rename is
attempted afterwards and its failure is non-fatal. -/
def patchFolderHandler (s : Store) (id : Nat) (name : List Char) :
    Option Store :=
  if id == 0 then none
  else if jsBlank name then none
  else
    match s.folders.find? (fun x => x.id == id) with
    | none => none
    | some folder => some { s with folders := patchFolderRows s id name folder }

/-- the handler together with the attempted physical rename; `diskOk` says
whether `fsPromises.rename` succeeds, and the store result never depends on
it (the catch only logs: app.js lines 2513-2516). -/
def patchFolderFull (diskOk : Bool) (s : Store) (id : Nat)
    (name : List Char) : Option (Store × Bool) :=
  match patchFolderHandler s id name with
  | none => none
  | some s3 => some (s3, diskOk)

theorem isPrefixOf_self (l : List Char) : l.isPrefixOf l = true := by
  induction l with
  | nil => rfl
  | cons c rest ih => simp [List.isPrefixOf, ih]

/-- C9: renaming an existing folder rewrites, in the same store update, its
own fullPath to parent-path + "/" + newName and the fullPath of every
descendant (every row extending its old fullPath) by prefix substitution;
rows outside the prefix match keep their row, the other tables are
untouched, and the attempted physical rename is non-fatal: the store result
is identical whether the disk rename succeeds or fails. -/
theorem c9_rename_prefix_substitution (s : Store) (id : Nat)
    (name : List Char) (folder : Folder)
    (hid : (id == 0) = false) (hname : jsBlank name = false)
    (hfind : s.folders.find? (fun x => x.id == id) = some folder) :
    patchFolderHandler s id name =
        some { s with folders := patchFolderRows s id name folder } ∧
      (∃ fo ∈ patchFolderRows s id name folder, fo.id = folder.id ∧
        (folder.id = id → fo.name = name) ∧
        fo.fullPath = renameParentFull s folder ++ '/' :: name) ∧
      (∀ g ∈ s.folders, folder.fullPath.isPrefixOf g.fullPath = true →
        ∃ g2 ∈ patchFolderRows s id name folder, g2.id = g.id ∧
          g2.fullPath = (renameParentFull s folder ++ '/' :: name) ++
            g.fullPath.drop folder.fullPath.length) ∧
      (∀ g ∈ s.folders, folder.fullPath.isPrefixOf g.fullPath = false →
        (g.id == id) = false → g ∈ patchFolderRows s id name folder) ∧
      (∀ diskOk, patchFolderFull diskOk s id name =
        some ({ s with folders := patchFolderRows s id name folder },
          diskOk)) := by
  refine ⟨?_, ?_, ?_, ?_, ?_⟩
  · rw [patchFolderHandler, hid, hname, hfind]
    rfl
  · have hmem : folder ∈ s.folders := List.mem_of_find?_eq_some hfind
    refine ⟨_, List.mem_map.mpr
      ⟨_, List.mem_map.mpr ⟨folder, hmem, rfl⟩, rfl⟩, ?_, ?_, ?_⟩
    · cases hcase : (folder.id == id) <;>
        simp [isPrefixOf_self, hcase]
    · intro hfid
      have hcase : (folder.id == id) = true := by simp [hfid]
      simp [isPrefixOf_self, hcase]
    · cases hcase : (folder.id == id) <;>
        simp [isPrefixOf_self, hcase, List.drop_length]
  · intro g hg hpre
    refine ⟨_, List.mem_map.mpr
      ⟨_, List.mem_map.mpr ⟨g, hg, rfl⟩, rfl⟩, ?_, ?_⟩
    · cases hcase : (g.id == id) <;> simp [hpre, hcase]
    · cases hcase : (g.id == id) <;> simp [hpre, hcase]
  · intro g hg hpre hgid
    have hfix : (if g.id == id then
        { g with name := name } else g) = g := by
      simp [hgid]
    refine List.mem_map.mpr ⟨g, List.mem_map.mpr ⟨g, hg, ?_⟩, ?_⟩
    · simp [hpre]
    · simp [hgid]
  · intro diskOk
    rw [patchFolderFull, patchFolderHandler, hid, hname, hfind]
    rfl

/-- the section-8 rename scenario extended with a sibling: "/root/A" with
child "/root/A/B" and sibling "/root/AB". -/
def c9Store : Store :=
  ⟨[⟨1, ['r', 'o', 'o', 't'], none, ['/', 'r', 'o', 'o', 't']⟩,
    ⟨2, ['A'], some 1, ['/', 'r', 'o', 'o', 't', '/', 'A']⟩,
    ⟨3, ['B'], some 2, ['/', 'r', 'o', 'o', 't', '/', 'A', '/', 'B']⟩,
    ⟨4, ['A', 'B'], some 1, ['/', 'r', 'o', 'o', 't', '/', 'A', 'B']⟩],
   [], [], []⟩

/-- C9 witness: renaming "A" (id 2) to "A2" yields "/root/A2" and
"/root/A2/B" in one update, for either disk outcome; the raw LIKE prefix
also rewrites the sibling "/root/AB" to "/root/A2B". -/
theorem c9_rename_witness :
    patchFolderHandler c9Store 2 ['A', '2'] =
      some ⟨[⟨1, ['r', 'o', 'o', 't'], none, ['/', 'r', 'o', 'o', 't']⟩,
        ⟨2, ['A', '2'], some 1, ['/', 'r', 'o', 'o', 't', '/', 'A', '2']⟩,
        ⟨3, ['B'], some 2,
          ['/', 'r', 'o', 'o', 't', '/', 'A', '2', '/', 'B']⟩,
        ⟨4, ['A', 'B'], some 1,
          ['/', 'r', 'o', 'o', 't', '/', 'A', '2', 'B']⟩], [], [], []⟩ ∧
    (∀ diskOk, (patchFolderFull diskOk c9Store 2 ['A', '2']).map Prod.fst =
        some ⟨[⟨1, ['r', 'o', 'o', 't'], none, ['/', 'r', 'o', 'o', 't']⟩,
          ⟨2, ['A', '2'], some 1, ['/', 'r', 'o', 'o', 't', '/', 'A', '2']⟩,
          ⟨3, ['B'], some 2,
            ['/', 'r', 'o', 'o', 't', '/', 'A', '2', '/', 'B']⟩,
          ⟨4, ['A', 'B'], some 1,
            ['/', 'r', 'o', 'o', 't', '/', 'A', '2', 'B']⟩], [], [], []⟩ ∧
      (patchFolderFull diskOk c9Store 2 ['A', '2']).map Prod.snd =
        some diskOk) := by
  have h := c9_rename_prefix_substitution c9Store 2 ['A', '2']
    ⟨2, ['A'], some 1, ['/', 'r', 'o', 'o', 't', '/', 'A']⟩
    (by decide) (by decide) (by decide)
  refine ⟨?_, ?_⟩
  · rw [h.1]
    decide
  · intro diskOk
    rw [h.2.2.2.2 diskOk]
    refine ⟨?_, rfl⟩
    simp only [Option.map_some']
    decide

/-! ## C1, C2: the recursive reconciler `discoverAndSyncFolderRecursive`
(app.js lines 1976-2178), enqueued as a background job by GET /api/files
(app.js line 2209) and by GET /api/folders (app.js line 2275). -/

/-- a well-formed path segment: non-empty, slash-free and not one of the
special "." / ".." segments that `path.join` would normalise away. -/
def goodSeg (s : List Char) : Bool :=
  !s.isEmpty && s.all (fun c => !(c == '/')) &&
    !(s == ['.']) && !(s == ['.', '.'])

/-- a well-formed absolute slash-separated path: it is exactly the
slash-join of its own non-empty segments, all of them well-formed. -/
def goodAbs (p : List Char) : Bool :=
  !(pathParts p).isEmpty && (p == slashJoin (pathParts p)) &&
    (pathParts p).all goodSeg

/-- a well-formed physical path strictly inside the upload root. -/
def goodPhys (p : List Char) : Bool :=
  goodAbs p && uploadRootSegs.isPrefixOf (pathParts p) &&
    decide (uploadRootSegs.length < (pathParts p).length)

/-- JS `folderId || null`: the id 0 is falsy and becomes null. -/
def jsTruthy (folderId : Nat) : Option Nat :=
  if folderId == 0 then none else some folderId

/-- JS `Set.prototype.add` on a set kept as its insertion-ordered list of
distinct elements: append unless already present. -/
def addSeen (seen : List (List Char)) (p : List Char) : List (List Char) :=
  if seen.contains p then seen else seen ++ [p]

/-- the subdirectory entries `readdir` reports inside directory `p`: the
disk's directories lying directly below `p`. -/
def childDirs (d : Disk) (p : List Char) : List (List Char) :=
  d.dirs.filter (fun q => parentPath q == p)

/-- the directories visited by the recursive `walkDir` of
`discoverAndSyncFolderRecursive` (app.js lines 2012-2031): a depth-first
preorder walk of the subdirectories below `p`.  The recursion on the
directory tree is paid for with fuel; the pass runs it with fuel
`d.dirs.length + 1`, enough for every disk whose directory depths are
bounded by its directory count (`walk_complete`). -/
def walkDirs (d : Disk) : Nat → List Char → List (List Char)
  | 0, _ => []
  | fuel + 1, p => (childDirs d p).flatMap (fun q => q :: walkDirs d fuel q)

/-- the sort key of the folder-insertion phase: `a.split("/").length`. -/
def depthKey (p : List Char) : Nat := (splitSlash p).length

/-- the ordering induced by the comparator
`(a, b) => a.split("/").length - b.split("/").length` of the
folder-insertion sort (app.js line 2043). -/
def depthLe (a b : List Char) : Prop := depthKey a ≤ depthKey b

instance : DecidableRel depthLe := fun a b => Nat.decLe (depthKey a) (depthKey b)

instance : IsTotal (List Char) depthLe :=
  ⟨fun a b => Nat.le_total (depthKey a) (depthKey b)⟩

instance : IsTrans (List Char) depthLe :=
  ⟨fun _ _ _ hab hbc => Nat.le_trans hab hbc⟩

/-- the name of an inserted folder (app.js line 2047):
`fFull.split("/").pop() || fFull`. -/
def folderInsertName (fFull : List Char) : List Char :=
  if ((splitSlash fFull).getLastD []).isEmpty then fFull
  else (splitSlash fFull).getLastD []

/-- the parent id of an inserted folder (app.js lines 2048-2052): the map's
entry for `parentFull` (the prefix before the last slash, `null` when the
last slash is at position 0 or absent), falling back to `folderId || null`
when there is no parent path or the map misses it. -/
def folderInsertParentId (folderId : Nat) (m : List ((List Char) × Nat))
    (fFull : List Char) : Option Nat :=
  if (parentPath fFull).isEmpty then jsTruthy folderId
  else match m.lookup (parentPath fFull) with
    | some i => some i
    | none => jsTruthy folderId

/-- one iteration of the folder-insertion loop (app.js lines 2045-2070)
over the accumulated (store, fullPath-to-Id map, folder id list): skip when
the map already knows the path; otherwise insert a Folder row and record it
in the map and in the id list.  The JS map stores `{ Id, ParentId }` per
path but only ever reads `Id`, so the model keeps the id alone. -/
def insertFolderStep (folderId : Nat)
    (acc : Store × List ((List Char) × Nat) × List Nat)
    (fFull : List Char) : Store × List ((List Char) × Nat) × List Nat :=
  match acc.2.1.lookup fFull with
  | some _ => acc
  | none =>
    ({ acc.1 with folders := acc.1.folders ++
        [⟨freshFolderId acc.1, folderInsertName fFull,
          folderInsertParentId folderId acc.2.1 fFull, fFull⟩] },
      ((fFull, freshFolderId acc.1) :: acc.2.1,
        acc.2.2 ++ [freshFolderId acc.1]))

/-- one iteration of the file-insertion loop (app.js lines 2081-2115):
skip paths the re-queried files map knows; resolve the containing folder
through the folder map at the logical path of the file's directory,
skipping when missing; `stat` the file for its size (a failing stat is
caught and skips the row, and `stat.size || 0` is the size itself since
only 0 is falsy); insert a Files row with the base name, the physical
storage path and the default mime type. -/
def insertFileStep (d : Disk) (m : List ((List Char) × Nat))
    (known : List (List Char)) (s : Store) (fp : List Char) : Store :=
  if known.contains fp then s
  else
    match m.lookup (toLogical (parentPath fp)) with
    | none => s
    | some fid =>
      match d.files.lookup fp with
      | none => s
      | some sz =>
        { s with files := s.files ++
            [⟨freshFileId s, fid, baseName fp, fp, sz, octetStream⟩] }

/-- the Folders rows fetched under the prefix: `FullPath LIKE prefix + "%"`
(app.js lines 1989-1994; the trailing-slash conditional at line 1989 builds
the same pattern in both branches). -/
def syncMatchRows (s : Store) (base : List Char) : List Folder :=
  s.folders.filter (fun g => base.isPrefixOf g.fullPath)

/-- the `existingFolderMap`: `Map.set` over the fetched rows, modelled by
prepending so that a later set shadows an earlier one. -/
def buildFolderMap (rows : List Folder) : List ((List Char) × Nat) :=
  rows.foldl (fun m g => (g.fullPath, g.id) :: m) []

/-- the directories the pass walks below the physical base. -/
def syncWalked (d : Disk) (base : List Char) : List (List Char) :=
  walkDirs d (d.dirs.length + 1) (fullPathToPhysical base)

/-- the `seenFolders` set: the logical path of every walked directory, and
finally the base folder's own logical path (app.js lines 2019-2024, 2037). -/
def syncSeenFolders (d : Disk) (base : List Char) : List (List Char) :=
  addSeen (((syncWalked d base).map toLogical).foldl addSeen []) base

/-- the `seenFiles` set: the physical path of every regular file inside a
visited directory (the base directory or any walked subdirectory), in the
disk's enumeration order (app.js lines 2026-2029). -/
def syncSeenFiles (d : Disk) (base : List Char) : List (List Char) :=
  ((d.files.map Prod.fst).filter (fun fp =>
    (fullPathToPhysical base :: syncWalked d base).contains
      (parentPath fp))).foldl addSeen []

/-- the folder-insertion phase: sort the seen logical paths by depth with
the stable `Array.prototype.sort` (modelled by insertion sort, also stable)
and fold the insertion loop over them, starting from the fetched map and
id list. -/
def syncFolderPhase (d : Disk) (s : Store) (folderId : Nat)
    (base : List Char) : Store × List ((List Char) × Nat) × List Nat :=
  (List.insertionSort depthLe (syncSeenFolders d base)).foldl
    (insertFolderStep folderId)
    (s, buildFolderMap (syncMatchRows s base),
      (syncMatchRows s base).map Folder.id)

/-- the re-queried `existingFilesMap` (app.js lines 2073-2078), read only
through `.has`: the storage paths of the Files rows whose FolderId is in
the accumulated id list. -/
def syncKnownPaths (st : Store) (ids : List Nat) : List (List Char) :=
  (st.files.filter (fun f => ids.contains f.folderId)).map FileRec.storagePath

/-- the file-insertion phase, folded over the seen files. -/
def syncFilePhase (d : Disk) (s : Store) (folderId : Nat)
    (base : List Char) : Store :=
  (syncSeenFiles d base).foldl
    (insertFileStep d (syncFolderPhase d s folderId base).2.1
      (syncKnownPaths (syncFolderPhase d s folderId base).1
        (syncFolderPhase d s folderId base).2.2))
    (syncFolderPhase d s folderId base).1

/-- the cleanup jobs for vanished files (app.js lines 2135-2158): one job
per Files row joined to a prefix-matching folder whose storage path was
not seen on disk. -/
def syncFileJobs (d : Disk) (s : Store) (folderId : Nat)
    (base : List Char) : List DbJob :=
  (((syncFilePhase d s folderId base).files.filter (fun f =>
      (syncFilePhase d s folderId base).folders.any (fun g =>
        g.id == f.folderId && base.isPrefixOf g.fullPath))).filter (fun f =>
      !((syncSeenFiles d base).contains f.storagePath))).map
    (fun f => DbJob.deleteFileRec f.id)

/-- the cleanup jobs for vanished folders (app.js lines 2160-2176): one job
per prefix-matching Folders row whose full path was not seen on disk. -/
def syncFolderJobs (d : Disk) (s : Store) (folderId : Nat)
    (base : List Char) : List DbJob :=
  (((syncFilePhase d s folderId base).folders.filter (fun g =>
      base.isPrefixOf g.fullPath)).filter (fun g =>
      !((syncSeenFolders d base).contains g.fullPath))).map
    (fun g => DbJob.deleteFolderRec g.id)

/-- model of `discoverAndSyncFolderRecursive(folderId, folderFullPath)`
(app.js lines 1976-2178): return untouched when the physical base fails the
access probe; otherwise fetch the prefix-matching rows, walk the disk,
insert missing folders top-down and then missing files, and enqueue one
cleanup job per vanished file and then per vanished folder.  The initial
`existingFilesMap` built at lines 2001-2007 is reassigned at line 2073
before it is ever read, so the model omits that dead build.  The pass reads
the disk (readdir, stat, access) but never writes it, so its result is the
updated store and the enqueued jobs. -/
def discoverAndSyncFolderRecursive (d : Disk) (s : Store) (folderId : Nat)
    (base : List Char) : Store × List DbJob :=
  if dirExistsOnDisk d (fullPathToPhysical base) then
    (syncFilePhase d s folderId base,
      syncFileJobs d s folderId base ++ syncFolderJobs d s folderId base)
  else (s, [])

/-- a queued cleanup job run against the store and the disk: the enqueued
closures (app.js lines 2147-2156 and 2163-2172) issue only SQL DELETEs
through the pool, so the disk component is returned untouched. -/
def runDbJobFull (st : Store) (dk : Disk) (j : DbJob) : Store × Disk :=
  (runDbJob st j, dk)

/-! ### Path well-formedness lemmas -/

theorem goodSeg_spec (s : List Char) (h : goodSeg s = true) :
    s ≠ [] ∧ (∀ c ∈ s, c ≠ '/') ∧ s ≠ ['.'] ∧ s ≠ ['.', '.'] := by
  simp only [goodSeg, Bool.and_eq_true, Bool.not_eq_true', List.all_eq_true,
    Bool.not_eq_true] at h
  refine ⟨?_, ?_, ?_, ?_⟩
  · intro hnil
    rw [← List.isEmpty_iff] at hnil
    simp [hnil] at h
  · intro c hc
    have := h.1.1.2 c hc
    simpa using this
  · intro heq
    have := h.1.2
    simp [heq] at this
  · intro heq
    have := h.2
    simp [heq] at this

theorem goodAbs_spec (p : List Char) (h : goodAbs p = true) :
    pathParts p ≠ [] ∧ p = slashJoin (pathParts p) ∧
      ∀ s ∈ pathParts p, goodSeg s = true := by
  simp only [goodAbs, Bool.and_eq_true, List.all_eq_true, beq_iff_eq,
    Bool.not_eq_true'] at h
  exact ⟨by simpa [List.isEmpty_eq_false] using h.1.1, h.1.2, h.2⟩

theorem goodAbs_slashJoin (t : List (List Char)) (ht : t ≠ [])
    (hall : ∀ s ∈ t, goodSeg s = true) :
    goodAbs (slashJoin t) = true ∧ pathParts (slashJoin t) = t := by
  have hparts : pathParts (slashJoin t) = t :=
    pathParts_slashJoin t (fun s hs =>
      ⟨(goodSeg_spec s (hall s hs)).1, (goodSeg_spec s (hall s hs)).2.1⟩)
  refine ⟨?_, hparts⟩
  simp only [goodAbs]
  rw [hparts]
  have h1 : (!t.isEmpty) = true := by simp [List.isEmpty_eq_false, ht]
  rw [h1, beq_self_eq_true, List.all_eq_true.mpr hall]
  rfl

theorem goodPhys_spec (p : List Char) (h : goodPhys p = true) :
    goodAbs p = true ∧ uploadRootSegs.isPrefixOf (pathParts p) = true ∧
      uploadRootSegs.length < (pathParts p).length := by
  simp only [goodPhys, Bool.and_eq_true, decide_eq_true_eq] at h
  exact ⟨h.1.1, h.1.2, h.2⟩

theorem joinSlash_cons_of_ne_nil (s : List Char) (r : List (List Char))
    (h : r ≠ []) : joinSlash (s :: r) = s ++ '/' :: joinSlash r := by
  cases r with
  | nil => exact absurd rfl h
  | cons t ts => rfl

theorem joinSlash_snoc (t : List (List Char)) (x : List Char) (h : t ≠ []) :
    joinSlash (t ++ [x]) = joinSlash t ++ '/' :: x := by
  induction t with
  | nil => exact absurd rfl h
  | cons s ts ih =>
    cases ts with
    | nil => rfl
    | cons u us =>
      rw [List.cons_append,
        joinSlash_cons_of_ne_nil s ((u :: us) ++ [x]) (by simp),
        ih (by simp), joinSlash_cons_of_ne_nil s (u :: us) (by simp)]
      simp

theorem slashJoin_snoc (t : List (List Char)) (x : List Char) (h : t ≠ []) :
    slashJoin (t ++ [x]) = slashJoin t ++ '/' :: x := by
  simp [slashJoin, joinSlash_snoc t x h]

theorem parentPath_slashJoin_snoc (t : List (List Char)) (x : List Char)
    (ht : t ≠ []) (hx : ∀ c ∈ x, c ≠ '/') :
    parentPath (slashJoin (t ++ [x])) = slashJoin t := by
  rw [slashJoin_snoc t x ht]
  exact parentPath_append _ x hx

theorem baseName_slashJoin (t : List (List Char)) (x : List Char)
    (hx : ∀ c ∈ x, c ≠ '/') : baseName (slashJoin (t ++ [x])) = x := by
  cases t with
  | nil => exact baseName_append [] x hx
  | cons u us =>
    rw [slashJoin_snoc (u :: us) x (by simp)]
    exact baseName_append _ x hx

theorem parentPath_goodAbs (p : List Char) (h : goodAbs p = true)
    (h2 : 2 ≤ (pathParts p).length) :
    parentPath p = slashJoin ((pathParts p).dropLast) ∧
    pathParts (parentPath p) = (pathParts p).dropLast ∧
    goodAbs (parentPath p) = true := by
  obtain ⟨hne, hrep, hall⟩ := goodAbs_spec p h
  have hxt : (pathParts p).dropLast ++ [(pathParts p).getLast hne] =
      pathParts p := List.dropLast_append_getLast hne
  have ht : (pathParts p).dropLast ≠ [] := by
    have := List.length_dropLast (pathParts p)
    intro hnil
    rw [hnil] at this
    simp at this
    omega
  have hxgood : ∀ c ∈ (pathParts p).getLast hne, c ≠ '/' :=
    (goodSeg_spec _ (hall _ (List.getLast_mem hne))).2.1
  have hparent : parentPath p = slashJoin ((pathParts p).dropLast) := by
    conv_lhs => rw [hrep, ← hxt]
    exact parentPath_slashJoin_snoc _ _ ht hxgood
  have hdall : ∀ s ∈ (pathParts p).dropLast, goodSeg s = true := by
    intro s hs
    exact hall s (List.dropLast_subset _ hs)
  have hgood := goodAbs_slashJoin _ ht hdall
  refine ⟨hparent, ?_, ?_⟩
  · rw [hparent]
    exact hgood.2
  · rw [hparent]
    exact hgood.1

theorem parentPath_goodAbs_one (p : List Char) (h : goodAbs p = true)
    (h1 : (pathParts p).length = 1) : parentPath p = [] := by
  obtain ⟨hne, hrep, hall⟩ := goodAbs_spec p h
  obtain ⟨x, hx⟩ : ∃ x, pathParts p = [x] := by
    cases hp : pathParts p with
    | nil => rw [hp] at h1; simp at h1
    | cons a l =>
      rw [hp] at h1
      simp at h1
      exact ⟨a, by rw [h1]⟩
  have hxgood : ∀ c ∈ x, c ≠ '/' :=
    (goodSeg_spec x (hall x (by rw [hx]; exact List.mem_singleton_self x))).2.1
  have : p = [] ++ '/' :: x := by rw [hrep, hx]; rfl
  rw [this]
  exact parentPath_append [] x hxgood

theorem splitSlash_slashJoin (t : List (List Char)) (ht : t ≠ [])
    (hall : ∀ s ∈ t, goodSeg s = true) :
    splitSlash (slashJoin t) = [] :: t := by
  cases t with
  | nil => exact absurd rfl ht
  | cons s rest =>
    have hsplit : splitSlash (slashJoin (s :: rest)) =
        [] :: splitSlashAux (joinSlash (s :: rest)) [] := by
      simp [splitSlash, slashJoin, splitSlashAux]
    rw [hsplit, splitSlashAux_joinSlash s rest (fun x hx =>
      (goodSeg_spec x (hall x hx)).2.1)]

theorem getLastD_eq_getLast {α : Type} (l : List α) (d : α) (h : l ≠ []) :
    l.getLastD d = l.getLast h := by
  induction l generalizing d with
  | nil => exact absurd rfl h
  | cons a t ih =>
    cases t with
    | nil => rfl
    | cons b u =>
      rw [List.getLastD_cons, ih a (by simp)]
      exact (List.getLast_cons (by simp)).symm

theorem nameOf_goodAbs (p : List Char) (h : goodAbs p = true) :
    (if ((splitSlash p).getLastD []).isEmpty then p
     else (splitSlash p).getLastD []) = baseName p := by
  obtain ⟨hne, hrep, hall⟩ := goodAbs_spec p h
  have hxt : (pathParts p).dropLast ++ [(pathParts p).getLast hne] =
      pathParts p := List.dropLast_append_getLast hne
  have hlast : (splitSlash p).getLastD [] = (pathParts p).getLast hne := by
    conv_lhs => rw [hrep, splitSlash_slashJoin _ hne hall]
    rw [List.getLastD_cons]
    exact getLastD_eq_getLast _ _ hne
  have hxgood := goodSeg_spec _ (hall _ (List.getLast_mem hne))
  have hbase : baseName p = (pathParts p).getLast hne := by
    conv_lhs => rw [hrep, ← hxt]
    exact baseName_slashJoin _ _ hxgood.2.1
  rw [hlast, hbase, if_neg]
  intro hemp
  exact hxgood.1 (List.isEmpty_iff.mp hemp)

theorem depthKey_goodAbs (p : List Char) (h : goodAbs p = true) :
    depthKey p = (pathParts p).length + 1 := by
  obtain ⟨hne, hrep, hall⟩ := goodAbs_spec p h
  rw [depthKey]
  conv_lhs => rw [hrep]
  rw [splitSlash_slashJoin _ hne hall]
  simp

theorem depthKey_parentPath_lt (p : List Char) (h : goodAbs p = true) :
    depthKey (parentPath p) < depthKey p := by
  have hne := (goodAbs_spec p h).1
  have hpos : 1 ≤ (pathParts p).length := by
    cases hp : pathParts p with
    | nil => exact absurd hp hne
    | cons a l => simp
  rcases Nat.lt_or_ge (pathParts p).length 2 with h2 | h2
  · have h1 : (pathParts p).length = 1 := by omega
    rw [parentPath_goodAbs_one p h h1, depthKey_goodAbs p h, h1]
    decide
  · obtain ⟨_, hparts, hgood⟩ := parentPath_goodAbs p h h2
    rw [depthKey_goodAbs _ hgood, depthKey_goodAbs p h, hparts,
      List.length_dropLast]
    omega

/-! ### Physical paths and `toLogical` -/

theorem goodPhys_decomp (p : List Char) (h : goodPhys p = true) :
    ∃ t, t ≠ [] ∧ pathParts p = uploadRootSegs ++ t ∧
      (∀ s ∈ t, goodSeg s = true) ∧ toLogical p = slashJoin t ∧
      goodAbs p = true ∧ goodAbs (toLogical p) = true ∧
      pathParts (toLogical p) = t := by
  obtain ⟨habs, hpre, hlen⟩ := goodPhys_spec p h
  obtain ⟨t, ht⟩ := List.isPrefixOf_iff_prefix.mp hpre
  have htne : t ≠ [] := by
    intro hnil
    rw [hnil, List.append_nil] at ht
    rw [← ht] at hlen
    omega
  have hall := (goodAbs_spec p habs).2.2
  have htall : ∀ s ∈ t, goodSeg s = true := by
    intro s hs
    exact hall s (by rw [← ht]; exact List.mem_append_right _ hs)
  have htl : toLogical p = slashJoin t := by
    rw [toLogical, ← ht, relSegs_append]
  have hgood := goodAbs_slashJoin t htne htall
  exact ⟨t, htne, ht.symm, htall, htl, habs, by rw [htl]; exact hgood.1,
    by rw [htl]; exact hgood.2⟩

theorem uploadRootSegs_goodSeg : ∀ s ∈ uploadRootSegs, goodSeg s = true := by
  decide

theorem toLogical_physical_goodAbs (p : List Char) (h : goodAbs p = true) :
    toLogical (fullPathToPhysical p) = p ∧
    goodPhys (fullPathToPhysical p) = true ∧
    pathParts (fullPathToPhysical p) = uploadRootSegs ++ pathParts p := by
  obtain ⟨hne, hrep, hall⟩ := goodAbs_spec p h
  have hnodots : ∀ s ∈ uploadRootSegs ++ pathParts p,
      s ≠ ['.'] ∧ s ≠ ['.', '.'] := by
    intro s hs
    rcases List.mem_append.mp hs with hs | hs
    · exact ⟨(uploadRootSegs_wf s hs).2.1, (uploadRootSegs_wf s hs).2.2⟩
    · exact ⟨(goodSeg_spec s (hall s hs)).2.2.1,
        (goodSeg_spec s (hall s hs)).2.2.2⟩
  have hallgood : ∀ s ∈ uploadRootSegs ++ pathParts p, goodSeg s = true := by
    intro s hs
    rcases List.mem_append.mp hs with hs | hs
    · exact uploadRootSegs_goodSeg s hs
    · exact hall s hs
  have hphys : fullPathToPhysical p = slashJoin (uploadRootSegs ++ pathParts p) := by
    rw [fullPathToPhysical, fullPathToPhysicalSegs,
      normSegs_eq_self _ hnodots]
  have hgood := goodAbs_slashJoin (uploadRootSegs ++ pathParts p)
    (by simp [uploadRootSegs]) hallgood
  have hparts : pathParts (fullPathToPhysical p) =
      uploadRootSegs ++ pathParts p := by
    rw [hphys]; exact hgood.2
  have hlenp : 1 ≤ (pathParts p).length := by
    cases hp : pathParts p with
    | nil => exact absurd hp hne
    | cons a l => simp
  refine ⟨?_, ?_, hparts⟩
  · rw [toLogical, hparts, relSegs_append, ← hrep]
  · simp only [goodPhys, Bool.and_eq_true, decide_eq_true_eq]
    refine ⟨⟨by rw [hphys]; exact hgood.1, ?_⟩, ?_⟩
    · rw [hparts]
      exact List.isPrefixOf_iff_prefix.mpr (List.prefix_append _ _)
    · rw [hparts, List.length_append]
      omega

theorem toLogical_parentPath_comm (p : List Char) (h : goodPhys p = true)
    (hdeep : uploadRootSegs.length + 1 < (pathParts p).length) :
    parentPath (toLogical p) = toLogical (parentPath p) ∧
    goodPhys (parentPath p) = true := by
  obtain ⟨t, htne, hparts, htall, htl, habs, hlabs, hlparts⟩ :=
    goodPhys_decomp p h
  have hroot : uploadRootSegs.length = 3 := by decide
  have htlen : 2 ≤ t.length := by
    have := congrArg List.length hparts
    rw [List.length_append] at this
    omega
  have hplen : 2 ≤ (pathParts p).length := by omega
  obtain ⟨hpp, hppparts, hppabs⟩ := parentPath_goodAbs p habs hplen
  have hdrop : (pathParts p).dropLast = uploadRootSegs ++ t.dropLast := by
    rw [hparts]
    exact List.dropLast_append_of_ne_nil _ htne
  have htdne : t.dropLast ≠ [] := by
    intro hnil
    have := List.length_dropLast t
    rw [hnil] at this
    simp at this
    omega
  have hppphys : goodPhys (parentPath p) = true := by
    simp only [goodPhys, Bool.and_eq_true, decide_eq_true_eq]
    refine ⟨⟨hppabs, ?_⟩, ?_⟩
    · rw [hppparts, hdrop]
      exact List.isPrefixOf_iff_prefix.mpr (List.prefix_append _ _)
    · rw [hppparts, hdrop, List.length_append, List.length_dropLast]
      omega
  refine ⟨?_, hppphys⟩
  obtain ⟨t', ht'ne, hparts', ht'all, htl', _, _, _⟩ :=
    goodPhys_decomp (parentPath p) hppphys
  have ht' : t' = t.dropLast := by
    have : uploadRootSegs ++ t' = uploadRootSegs ++ t.dropLast := by
      rw [← hparts', hppparts, hdrop]
    exact List.append_cancel_left this
  have hlog2 : 2 ≤ (pathParts (toLogical p)).length := by
    rw [hlparts]; omega
  obtain ⟨hlp, hlpparts, _⟩ := parentPath_goodAbs (toLogical p) hlabs hlog2
  rw [hlp, hlparts, htl', ht']

/-! ### Set and map helper lemmas -/

theorem mem_addSeen (l : List (List Char)) (x p : List Char) :
    x ∈ addSeen l p ↔ x ∈ l ∨ x = p := by
  unfold addSeen
  by_cases h : l.contains p = true
  · rw [if_pos h]
    constructor
    · exact Or.inl
    · rintro (hx | rfl)
      · exact hx
      · exact List.elem_iff.mp h
  · rw [if_neg h]
    simp

theorem nodup_addSeen (l : List (List Char)) (p : List Char)
    (h : l.Nodup) : (addSeen l p).Nodup := by
  unfold addSeen
  by_cases hc : l.contains p = true
  · rw [if_pos hc]; exact h
  · rw [if_neg hc]
    rw [List.nodup_append]
    refine ⟨h, List.nodup_singleton p, ?_⟩
    intro a ha hb
    rw [List.mem_singleton] at hb
    subst hb
    exact hc (List.elem_iff.mpr ha)

theorem mem_foldl_addSeen (l : List (List Char)) :
    ∀ (init : List (List Char)) (x : List Char),
      x ∈ l.foldl addSeen init ↔ x ∈ init ∨ x ∈ l := by
  induction l with
  | nil => intro init x; simp
  | cons p rest ih =>
    intro init x
    rw [List.foldl_cons, ih]
    rw [mem_addSeen]
    constructor
    · rintro ((hx | rfl) | hx)
      · exact Or.inl hx
      · exact Or.inr (List.mem_cons_self _ _)
      · exact Or.inr (List.mem_cons_of_mem _ hx)
    · rintro (hx | hx)
      · exact Or.inl (Or.inl hx)
      · rcases List.mem_cons.mp hx with rfl | hx
        · exact Or.inl (Or.inr rfl)
        · exact Or.inr hx

theorem nodup_foldl_addSeen (l : List (List Char)) :
    ∀ init, init.Nodup → (l.foldl addSeen init).Nodup := by
  induction l with
  | nil => intro init h; exact h
  | cons p rest ih =>
    intro init h
    rw [List.foldl_cons]
    exact ih _ (nodup_addSeen init p h)

theorem lookup_isSome_of_mem_keys {β : Type} :
    ∀ (l : List ((List Char) × β)) (k : List Char),
      k ∈ l.map Prod.fst → (List.lookup k l).isSome = true := by
  intro l
  induction l with
  | nil => intro k h; simp at h
  | cons a rest ih =>
    intro k h
    obtain ⟨k', v⟩ := a
    rw [List.lookup_cons]
    cases hbeq : (k == k') with
    | true => rfl
    | false =>
      apply ih
      have hne : k ≠ k' := beq_eq_false_iff_ne.mp hbeq
      rw [List.map_cons] at h
      rcases List.mem_cons.mp h with h1 | h1
      · exact absurd h1 hne
      · exact h1

theorem lookup_cons_isSome {β : Type} (m : List ((List Char) × β))
    (a : (List Char) × β) (k : List Char)
    (h : (List.lookup k m).isSome = true) :
    (List.lookup k (a :: m)).isSome = true := by
  obtain ⟨k', v⟩ := a
  rw [List.lookup_cons]
  cases hbeq : (k == k') with
  | true => rfl
  | false => exact h

theorem lookup_cons_none {β : Type} (m : List ((List Char) × β))
    (k' k : List Char) (v : β)
    (h : List.lookup k ((k', v) :: m) = none) :
    (k == k') = false ∧ List.lookup k m = none := by
  rw [List.lookup_cons] at h
  revert h
  cases hbeq : (k == k') with
  | true =>
    intro h
    exact Option.noConfusion h
  | false =>
    intro h
    exact ⟨rfl, h⟩

theorem buildFolderMap_lookup (rows : List Folder) :
    ∀ (m : List ((List Char) × Nat)) (k : List Char) (i : Nat),
      List.lookup k (rows.foldl (fun m g => (g.fullPath, g.id) :: m) m) =
        some i →
      (∃ g ∈ rows, g.fullPath = k ∧ g.id = i) ∨ List.lookup k m = some i := by
  induction rows with
  | nil => intro m k i h; exact Or.inr h
  | cons g rest ih =>
    intro m k i h
    rw [List.foldl_cons] at h
    rcases ih _ k i h with ⟨g', hg', hp, hi⟩ | h2
    · exact Or.inl ⟨g', List.mem_cons_of_mem _ hg', hp, hi⟩
    · rw [List.lookup_cons] at h2
      revert h2
      cases hbeq : (k == g.fullPath) with
      | true =>
        intro h2
        simp at h2
        exact Or.inl ⟨g, List.mem_cons_self _ _, (beq_iff_eq.mp hbeq).symm, h2⟩
      | false =>
        intro h2
        exact Or.inr h2

theorem foldl_prepend_isSome (rows : List Folder) :
    ∀ (m : List ((List Char) × Nat)) (k : List Char),
      (List.lookup k m).isSome = true →
      (List.lookup k
        (rows.foldl (fun m g => (g.fullPath, g.id) :: m) m)).isSome = true := by
  induction rows with
  | nil => intro m k h; exact h
  | cons g rest ih =>
    intro m k h
    rw [List.foldl_cons]
    exact ih _ k (lookup_cons_isSome m _ k h)

theorem buildFolderMap_isSome (rows : List Folder) :
    ∀ (m : List ((List Char) × Nat)) (g : Folder), g ∈ rows →
      (List.lookup g.fullPath
        (rows.foldl (fun m g => (g.fullPath, g.id) :: m) m)).isSome = true := by
  induction rows with
  | nil => intro m g hg; cases hg
  | cons g' rest ih =>
    intro m g hg
    rw [List.foldl_cons]
    rcases List.mem_cons.mp hg with rfl | hmem
    · apply foldl_prepend_isSome
      rw [List.lookup_cons]
      cases hbeq : (g.fullPath == g.fullPath) with
      | true => rfl
      | false => exact absurd hbeq (by simp)
    · exact ih _ g hmem

/-! ### Walk lemmas -/

theorem mem_childDirs (d : Disk) (p q : List Char) :
    q ∈ childDirs d p ↔ q ∈ d.dirs ∧ parentPath q = p := by
  rw [childDirs, List.mem_filter]
  constructor
  · rintro ⟨h1, h2⟩
    exact ⟨h1, beq_iff_eq.mp h2⟩
  · rintro ⟨h1, h2⟩
    exact ⟨h1, beq_iff_eq.mpr h2⟩

theorem walkDirs_subset (d : Disk) :
    ∀ (f : Nat) (p q : List Char), q ∈ walkDirs d f p → q ∈ d.dirs := by
  intro f
  induction f with
  | zero => intro p q h; simp [walkDirs] at h
  | succ f ih =>
    intro p q h
    rw [walkDirs] at h
    rcases List.mem_flatMap.mp h with ⟨c, hc, hq⟩
    rcases List.mem_cons.mp hq with rfl | hq2
    · exact ((mem_childDirs d p q).mp hc).1
    · exact ih c q hq2

theorem walkDirs_child (d : Disk) (f : Nat) (p q : List Char)
    (h : q ∈ childDirs d p) : q ∈ walkDirs d (f + 1) p := by
  rw [walkDirs]
  exact List.mem_flatMap.mpr ⟨q, h, List.mem_cons_self _ _⟩

theorem walkDirs_sub_child (d : Disk) (f : Nat) (p c q : List Char)
    (hc : c ∈ childDirs d p) (hq : q ∈ walkDirs d f c) :
    q ∈ walkDirs d (f + 1) p := by
  rw [walkDirs]
  exact List.mem_flatMap.mpr ⟨c, hc, List.mem_cons_of_mem _ hq⟩

theorem walkDirs_parent (d : Disk) :
    ∀ (f : Nat) (p q : List Char), q ∈ walkDirs d f p →
      parentPath q = p ∨ parentPath q ∈ walkDirs d f p := by
  intro f
  induction f with
  | zero => intro p q h; simp [walkDirs] at h
  | succ f ih =>
    intro p q h
    rw [walkDirs] at h
    rcases List.mem_flatMap.mp h with ⟨c, hc, hq⟩
    rcases List.mem_cons.mp hq with rfl | hq2
    · exact Or.inl ((mem_childDirs d p q).mp hc).2
    · rcases ih c q hq2 with hpar | hpar
      · exact Or.inr (by rw [hpar]; exact walkDirs_child d f p c hc)
      · exact Or.inr (walkDirs_sub_child d f p c _ hc hpar)

theorem walkDirs_mono (d : Disk) :
    ∀ (f f' : Nat) (p : List Char), f ≤ f' →
      ∀ q, q ∈ walkDirs d f p → q ∈ walkDirs d f' p := by
  intro f
  induction f with
  | zero => intro f' p _ q h; simp [walkDirs] at h
  | succ f ih =>
    intro f' p hle q hq
    cases f' with
    | zero => omega
    | succ f'' =>
      rw [walkDirs] at hq
      rcases List.mem_flatMap.mp hq with ⟨c, hc, hq2⟩
      rcases List.mem_cons.mp hq2 with rfl | hq3
      · exact walkDirs_child d f'' p q hc
      · exact walkDirs_sub_child d f'' p c q hc
          (ih f'' c (by omega) q hq3)

theorem walkDirs_trans (d : Disk) :
    ∀ (f : Nat) (p r q : List Char), r ∈ walkDirs d f p →
      q ∈ childDirs d r → q ∈ walkDirs d (f + 1) p := by
  intro f
  induction f with
  | zero => intro p r q h; simp [walkDirs] at h
  | succ f ih =>
    intro p r q hr hq
    rw [walkDirs] at hr
    rcases List.mem_flatMap.mp hr with ⟨c, hc, hr2⟩
    rcases List.mem_cons.mp hr2 with rfl | hr3
    · exact walkDirs_sub_child d (f + 1) p r q hc
        (walkDirs_child d f r q hq)
    · exact walkDirs_sub_child d (f + 1) p c q hc (ih c r q hr3 hq)

theorem walkDirs_parts (d : Disk)
    (hdirs : ∀ q ∈ d.dirs, goodPhys q = true) :
    ∀ (f : Nat) (p q : List Char), goodAbs p = true →
      q ∈ walkDirs d f p →
      (pathParts p).isPrefixOf (pathParts q) = true ∧
        (pathParts p).length < (pathParts q).length := by
  intro f
  induction f with
  | zero => intro p q _ h; simp [walkDirs] at h
  | succ f ih =>
    intro p q hp h
    rw [walkDirs] at h
    rcases List.mem_flatMap.mp h with ⟨c, hc, hq⟩
    have hcdirs := (mem_childDirs d p c).mp hc
    have hcphys := hdirs c hcdirs.1
    have hcspec := goodPhys_spec c hcphys
    have hclen : 2 ≤ (pathParts c).length := by
      have hroot : uploadRootSegs.length = 3 := by decide
      omega
    obtain ⟨hcp, hcparts, _⟩ := parentPath_goodAbs c hcspec.1 hclen
    have hpparts : pathParts p = (pathParts c).dropLast := by
      rw [← hcdirs.2, hcparts]
    have hstep : (pathParts p).isPrefixOf (pathParts c) = true ∧
        (pathParts p).length < (pathParts c).length := by
      constructor
      · rw [hpparts]
        exact List.isPrefixOf_iff_prefix.mpr (List.dropLast_prefix _)
      · rw [hpparts, List.length_dropLast]
        omega
    rcases List.mem_cons.mp hq with rfl | hq2
    · exact hstep
    · have hrec := ih c q hcspec.1 hq2
      constructor
      · exact List.isPrefixOf_iff_prefix.mpr
          ((List.isPrefixOf_iff_prefix.mp hstep.1).trans
            (List.isPrefixOf_iff_prefix.mp hrec.1))
      · omega

theorem walk_complete (d : Disk) (p : List Char)
    (hdirs : ∀ q ∈ d.dirs, goodPhys q = true) (hp : goodAbs p = true)
    (hclosed : ∀ q ∈ d.dirs,
      (pathParts p).isPrefixOf (pathParts q) = true →
      (pathParts p).length < (pathParts q).length →
      parentPath q = p ∨ parentPath q ∈ d.dirs) :
    ∀ (n : Nat) (q : List Char), (pathParts q).length ≤ n → q ∈ d.dirs →
      (pathParts p).isPrefixOf (pathParts q) = true →
      (pathParts p).length < (pathParts q).length →
      ∀ f, (pathParts q).length - (pathParts p).length ≤ f →
        q ∈ walkDirs d f p := by
  intro n
  induction n using Nat.strong_induction_on with
  | _ n ihn =>
    intro q hlen hq hpre hlt f hf
    have hqphys := hdirs q hq
    have hqspec := goodPhys_spec q hqphys
    have hroot : uploadRootSegs.length = 3 := by decide
    have hqlen : 2 ≤ (pathParts q).length := by omega
    obtain ⟨hqp, hqparts, _⟩ := parentPath_goodAbs q hqspec.1 hqlen
    have hpd : pathParts p <+: (pathParts q).dropLast :=
      List.prefix_of_prefix_length_le (List.isPrefixOf_iff_prefix.mp hpre)
        (List.dropLast_prefix _)
        (by rw [List.length_dropLast]; omega)
    rcases Nat.eq_or_lt_of_le
        (show (pathParts p).length ≤ (pathParts q).dropLast.length by
          rw [List.length_dropLast]; omega) with hcase | hcase
    · -- the parent of q is p itself: q is a direct child
      have hpeq : pathParts p = (pathParts q).dropLast :=
        List.IsPrefix.eq_of_length hpd hcase
      have hqpp : parentPath q = p := by
        rw [hqp, ← hpeq, ← (goodAbs_spec p hp).2.1]
      have hchild : q ∈ childDirs d p := (mem_childDirs d p q).mpr ⟨hq, hqpp⟩
      cases f with
      | zero =>
        have : (pathParts q).length - (pathParts p).length = 0 := by omega
        omega
      | succ f' => exact walkDirs_child d f' p q hchild
    · -- the parent of q is a strictly deeper directory: recurse
      have hqpplen : (pathParts (parentPath q)).length =
          (pathParts q).length - 1 := by
        rw [hqparts, List.length_dropLast]
      have hqppne : parentPath q ≠ p := by
        intro heq
        have : pathParts p = (pathParts q).dropLast := by
          rw [← heq, hqparts]
        rw [this] at hcase
        omega
      rcases hclosed q hq hpre hlt with heq | hmem
      · exact absurd heq hqppne
      · have hprepp : (pathParts p).isPrefixOf (pathParts (parentPath q)) = true := by
          rw [hqparts]
          exact List.isPrefixOf_iff_prefix.mpr hpd
        have hltpp : (pathParts p).length < (pathParts (parentPath q)).length := by
          rw [hqparts]
          rw [hqparts] at hqpplen
          omega
        cases f with
        | zero => omega
        | succ f' =>
          have hrec : parentPath q ∈ walkDirs d f' p := by
            apply ihn ((pathParts q).length - 1) (by omega) (parentPath q)
              (by omega) hmem hprepp hltpp f' (by omega)
          have hchild : q ∈ childDirs d (parentPath q) :=
            (mem_childDirs d (parentPath q) q).mpr ⟨hq, rfl⟩
          exact walkDirs_trans d f' p (parentPath q) q hrec hchild

/-! ### Folder-insertion fold lemmas -/

theorem lookup_cons_self {β : Type} (m : List ((List Char) × β))
    (k : List Char) (v : β) : List.lookup k ((k, v) :: m) = some v := by
  rw [List.lookup_cons, beq_self_eq_true]

theorem lookup_cons_of_ne {β : Type} (m : List ((List Char) × β))
    (k k' : List Char) (v : β) (h : (k == k') = false) :
    List.lookup k ((k', v) :: m) = List.lookup k m := by
  rw [List.lookup_cons, h]

theorem lookup_cons_cases {β : Type} (m : List ((List Char) × β))
    (k' k : List Char) (v i : β)
    (h : List.lookup k ((k', v) :: m) = some i) :
    (k = k' ∧ i = v) ∨ ((k == k') = false ∧ List.lookup k m = some i) := by
  rw [List.lookup_cons] at h
  revert h
  cases hbeq : (k == k') with
  | true =>
    intro h
    injection h with h
    exact Or.inl ⟨beq_iff_eq.mp hbeq, h.symm⟩
  | false =>
    intro h
    exact Or.inr ⟨rfl, h⟩

theorem folderInsertName_good (p : List Char) (h : goodAbs p = true) :
    folderInsertName p = baseName p := nameOf_goodAbs p h

theorem folderInsertParentId_some (folderId : Nat)
    (m : List ((List Char) × Nat)) (x : List Char) (i : Nat)
    (h1 : parentPath x ≠ []) (h2 : List.lookup (parentPath x) m = some i) :
    folderInsertParentId folderId m x = some i := by
  simp only [folderInsertParentId, List.isEmpty_eq_false.mpr h1,
    Bool.false_eq_true, if_false]
  rw [h2]

theorem insertFolders_frame (folderId : Nat) :
    ∀ (l : List (List Char)) (s : Store) (m : List ((List Char) × Nat))
      (ids : List Nat),
      (∃ rest,
        (l.foldl (insertFolderStep folderId) (s, m, ids)).1.folders =
          s.folders ++ rest ∧ ∀ g ∈ rest, g.fullPath ∈ l) ∧
      (l.foldl (insertFolderStep folderId) (s, m, ids)).1.files = s.files ∧
      (∀ k i, List.lookup k m = some i →
        List.lookup k
          (l.foldl (insertFolderStep folderId) (s, m, ids)).2.1 = some i) ∧
      (∀ x ∈ l,
        (List.lookup x
          (l.foldl (insertFolderStep folderId) (s, m, ids)).2.1).isSome =
          true) := by
  intro l
  induction l with
  | nil =>
    intro s m ids
    refine ⟨⟨[], by simp, by simp⟩, rfl, ?_, ?_⟩
    · intro k i h; exact h
    · intro x hx; cases hx
  | cons x₀ rest ih =>
    intro s m ids
    rw [List.foldl_cons]
    cases hlook : List.lookup x₀ m with
    | some i₀ =>
      have hstep : insertFolderStep folderId (s, m, ids) x₀ = (s, m, ids) := by
        simp only [insertFolderStep]
        rw [hlook]
      rw [hstep]
      obtain ⟨⟨r2, hr2, hr2mem⟩, hfiles, hmono, hkeys⟩ := ih s m ids
      refine ⟨⟨r2, hr2, fun g hg => List.mem_cons_of_mem _ (hr2mem g hg)⟩,
        hfiles, hmono, ?_⟩
      intro x hx
      rcases List.mem_cons.mp hx with rfl | hx2
      · rw [hmono x i₀ hlook]; rfl
      · exact hkeys x hx2
    | none =>
      have hstep : insertFolderStep folderId (s, m, ids) x₀ =
          ({ s with folders := s.folders ++
              [⟨freshFolderId s, folderInsertName x₀,
                folderInsertParentId folderId m x₀, x₀⟩] },
            ((x₀, freshFolderId s) :: m, ids ++ [freshFolderId s])) := by
        simp only [insertFolderStep]
        rw [hlook]
      rw [hstep]
      obtain ⟨⟨r2, hr2, hr2mem⟩, hfiles, hmono, hkeys⟩ :=
        ih ({ s with folders := s.folders ++
            [⟨freshFolderId s, folderInsertName x₀,
              folderInsertParentId folderId m x₀, x₀⟩] })
          ((x₀, freshFolderId s) :: m) (ids ++ [freshFolderId s])
      refine ⟨⟨⟨freshFolderId s, folderInsertName x₀,
          folderInsertParentId folderId m x₀, x₀⟩ :: r2, ?_, ?_⟩,
        hfiles, ?_, ?_⟩
      · rw [hr2]
        simp
      · intro g hg
        rcases List.mem_cons.mp hg with rfl | hg2
        · exact List.mem_cons_self _ _
        · exact List.mem_cons_of_mem _ (hr2mem g hg2)
      · intro k i h
        have hne : (k == x₀) = false := by
          rw [beq_eq_false_iff_ne]
          intro heq
          rw [heq, hlook] at h
          exact Option.noConfusion h
        exact hmono k i (by rw [lookup_cons_of_ne m k x₀ _ hne]; exact h)
      · intro x hx
        rcases List.mem_cons.mp hx with rfl | hx2
        · rw [hmono x (freshFolderId s) (lookup_cons_self m x _)]
          rfl
        · exact hkeys x hx2

theorem insertFolders_inv (folderId : Nat) :
    ∀ (l : List (List Char)) (s : Store) (m : List ((List Char) × Nat))
      (ids : List Nat),
      (∀ k i, List.lookup k m = some i →
        ∃ g ∈ s.folders, g.id = i ∧ g.fullPath = k) →
      ∀ k i,
        List.lookup k
          (l.foldl (insertFolderStep folderId) (s, m, ids)).2.1 = some i →
        ∃ g ∈ (l.foldl (insertFolderStep folderId) (s, m, ids)).1.folders,
          g.id = i ∧ g.fullPath = k := by
  intro l
  induction l with
  | nil =>
    intro s m ids hInv k i h
    exact hInv k i h
  | cons x₀ rest ih =>
    intro s m ids hInv
    rw [List.foldl_cons]
    cases hlook : List.lookup x₀ m with
    | some i₀ =>
      have hstep : insertFolderStep folderId (s, m, ids) x₀ = (s, m, ids) := by
        simp only [insertFolderStep]
        rw [hlook]
      rw [hstep]
      exact ih s m ids hInv
    | none =>
      have hstep : insertFolderStep folderId (s, m, ids) x₀ =
          ({ s with folders := s.folders ++
              [⟨freshFolderId s, folderInsertName x₀,
                folderInsertParentId folderId m x₀, x₀⟩] },
            ((x₀, freshFolderId s) :: m, ids ++ [freshFolderId s])) := by
        simp only [insertFolderStep]
        rw [hlook]
      rw [hstep]
      apply ih
      intro k i h
      rcases lookup_cons_cases m x₀ k (freshFolderId s) i h with
        ⟨hk, hv⟩ | ⟨_, h2⟩
      · exact ⟨⟨freshFolderId s, folderInsertName x₀,
          folderInsertParentId folderId m x₀, x₀⟩,
          List.mem_append_right _ (List.mem_singleton_self _),
          hv.symm, hk.symm⟩
      · obtain ⟨g, hg, hgi, hgp⟩ := hInv k i h2
        exact ⟨g, List.mem_append_left _ hg, hgi, hgp⟩

theorem insertFolders_link (folderId : Nat) :
    ∀ (l : List (List Char)) (s : Store) (m : List ((List Char) × Nat))
      (ids : List Nat),
      List.Sorted depthLe l → l.Nodup →
      (∀ k i, List.lookup k m = some i →
        ∃ g ∈ s.folders, g.id = i ∧ g.fullPath = k) →
      (∀ x ∈ l, List.lookup x m = none →
        goodAbs x = true ∧ parentPath x ≠ []) →
      (∀ x ∈ l, List.lookup x m = none →
        (List.lookup (parentPath x) m).isSome = true ∨ parentPath x ∈ l) →
      ∀ x ∈ l, List.lookup x m = none →
        ∃ g ∈ (l.foldl (insertFolderStep folderId) (s, m, ids)).1.folders,
          g.fullPath = x ∧ g.name = baseName x ∧
          ∃ p ∈ (l.foldl (insertFolderStep folderId) (s, m, ids)).1.folders,
            g.parentId = some p.id ∧ p.fullPath = parentPath x := by
  intro l
  induction l with
  | nil =>
    intro s m ids _ _ _ _ _ x hx
    cases hx
  | cons x₀ rest ih =>
    intro s m ids hsort hnd hInv hgood hpar x hx hxnone
    rw [List.foldl_cons]
    cases hlook : List.lookup x₀ m with
    | some i₀ =>
      have hstep : insertFolderStep folderId (s, m, ids) x₀ = (s, m, ids) := by
        simp only [insertFolderStep]
        rw [hlook]
      rw [hstep]
      rcases List.mem_cons.mp hx with rfl | hx2
      · rw [hxnone] at hlook
        exact Option.noConfusion hlook
      · apply ih s m ids hsort.of_cons hnd.of_cons hInv
          (fun y hy hyn => hgood y (List.mem_cons_of_mem _ hy) hyn)
          ?_ x hx2 hxnone
        intro y hy hyn
        rcases hpar y (List.mem_cons_of_mem _ hy) hyn with h | h
        · exact Or.inl h
        · rcases List.mem_cons.mp h with heq | hmem
          · refine Or.inl ?_
            rw [heq, hlook]
            rfl
          · exact Or.inr hmem
    | none =>
      have hgx := hgood x₀ (List.mem_cons_self _ _) hlook
      have hklt : depthKey (parentPath x₀) < depthKey x₀ :=
        depthKey_parentPath_lt x₀ hgx.1
      have hppsome : (List.lookup (parentPath x₀) m).isSome = true := by
        rcases hpar x₀ (List.mem_cons_self _ _) hlook with h | h
        · exact h
        · rcases List.mem_cons.mp h with heq | hmem
          · rw [heq] at hklt
            omega
          · have hle : depthKey x₀ ≤ depthKey (parentPath x₀) :=
              (List.pairwise_cons.mp hsort).1 _ hmem
            omega
      obtain ⟨i, hi⟩ := Option.isSome_iff_exists.mp hppsome
      obtain ⟨prow, hprow, hpid, hppath⟩ := hInv _ _ hi
      have hstep : insertFolderStep folderId (s, m, ids) x₀ =
          ({ s with folders := s.folders ++
              [⟨freshFolderId s, baseName x₀, some i, x₀⟩] },
            ((x₀, freshFolderId s) :: m, ids ++ [freshFolderId s])) := by
        simp only [insertFolderStep]
        rw [hlook, folderInsertName_good x₀ hgx.1,
          folderInsertParentId_some folderId m x₀ i hgx.2 hi]
      rw [hstep]
      have hframe := insertFolders_frame folderId rest
        ({ s with folders := s.folders ++
            [⟨freshFolderId s, baseName x₀, some i, x₀⟩] })
        ((x₀, freshFolderId s) :: m) (ids ++ [freshFolderId s])
      obtain ⟨⟨r2, hr2, _⟩, _, _, _⟩ := hframe
      rcases List.mem_cons.mp hx with rfl | hx2
      · refine ⟨⟨freshFolderId s, baseName x, some i, x⟩, ?_, rfl, rfl,
          prow, ?_, ?_, hppath⟩
        · rw [hr2]
          exact List.mem_append_left _
            (List.mem_append_right _ (List.mem_singleton_self _))
        · rw [hr2]
          exact List.mem_append_left _ (List.mem_append_left _ hprow)
        · rw [hpid]
      · have hxne : x ≠ x₀ := by
          intro heq
          rw [heq] at hx2
          exact (List.nodup_cons.mp hnd).1 hx2
        apply ih _ _ _ hsort.of_cons hnd.of_cons ?_ ?_ ?_ x hx2 ?_
        · intro k i' h
          rcases lookup_cons_cases m x₀ k (freshFolderId s) i' h with
            ⟨hk, hv⟩ | ⟨_, h2⟩
          · exact ⟨⟨freshFolderId s, baseName x₀, some i, x₀⟩,
              List.mem_append_right _ (List.mem_singleton_self _),
              hv.symm, hk.symm⟩
          · obtain ⟨g, hg, hgi, hgp⟩ := hInv k i' h2
            exact ⟨g, List.mem_append_left _ hg, hgi, hgp⟩
        · intro y hy hyn
          obtain ⟨_, hyn2⟩ := lookup_cons_none m x₀ y (freshFolderId s) hyn
          exact hgood y (List.mem_cons_of_mem _ hy) hyn2
        · intro y hy hyn
          obtain ⟨_, hyn2⟩ := lookup_cons_none m x₀ y (freshFolderId s) hyn
          rcases hpar y (List.mem_cons_of_mem _ hy) hyn2 with h | h
          · exact Or.inl (lookup_cons_isSome m _ _ h)
          · rcases List.mem_cons.mp h with heq | hmem
            · refine Or.inl ?_
              rw [heq, lookup_cons_self m x₀ (freshFolderId s)]
              rfl
            · exact Or.inr hmem
        · rw [lookup_cons_of_ne m x x₀ _ (beq_eq_false_iff_ne.mpr hxne)]
          exact hxnone

/-! ### File-insertion fold lemmas -/

theorem insertFiles_frame (d : Disk) (m : List ((List Char) × Nat))
    (known : List (List Char)) :
    ∀ (l : List (List Char)) (s : Store),
      (l.foldl (insertFileStep d m known) s).folders = s.folders ∧
      ∃ rest, (l.foldl (insertFileStep d m known) s).files = s.files ++ rest ∧
        ∀ fl ∈ rest, fl.storagePath ∈ l := by
  intro l
  induction l with
  | nil =>
    intro s
    exact ⟨rfl, [], by simp, by simp⟩
  | cons fp rest ih =>
    intro s
    rw [List.foldl_cons]
    have hsplit : insertFileStep d m known s fp = s ∨
        ∃ fid sz, insertFileStep d m known s fp =
          { s with files := s.files ++
              [⟨freshFileId s, fid, baseName fp, fp, sz, octetStream⟩] } := by
      rw [insertFileStep]
      by_cases hk : known.contains fp = true
      · rw [if_pos hk]
        exact Or.inl rfl
      · rw [if_neg hk]
        cases hm : List.lookup (toLogical (parentPath fp)) m with
        | none => exact Or.inl rfl
        | some fid =>
          cases hd : List.lookup fp d.files with
          | none => exact Or.inl rfl
          | some sz => exact Or.inr ⟨fid, sz, rfl⟩
    rcases hsplit with hstep | ⟨fid, sz, hstep⟩
    · rw [hstep]
      obtain ⟨hfold, r2, hr2, hr2mem⟩ := ih s
      exact ⟨hfold, r2, hr2,
        fun fl hfl => List.mem_cons_of_mem _ (hr2mem fl hfl)⟩
    · rw [hstep]
      obtain ⟨hfold, r2, hr2, hr2mem⟩ := ih
        { s with files := s.files ++
            [⟨freshFileId s, fid, baseName fp, fp, sz, octetStream⟩] }
      refine ⟨hfold, ⟨freshFileId s, fid, baseName fp, fp, sz, octetStream⟩ ::
        r2, ?_, ?_⟩
      · rw [hr2]
        simp
      · intro fl hfl
        rcases List.mem_cons.mp hfl with rfl | hfl2
        · exact List.mem_cons_self _ _
        · exact List.mem_cons_of_mem _ (hr2mem fl hfl2)

theorem insertFiles_insert (d : Disk) (m : List ((List Char) × Nat))
    (known : List (List Char)) :
    ∀ (l : List (List Char)) (s : Store),
      ∀ fp ∈ l, known.contains fp = false →
        ∀ i, List.lookup (toLogical (parentPath fp)) m = some i →
        ∀ sz, List.lookup fp d.files = some sz →
        ∃ fl ∈ (l.foldl (insertFileStep d m known) s).files,
          fl.storagePath = fp ∧ fl.name = baseName fp ∧ fl.folderId = i ∧
          fl.sizeBytes = sz ∧ fl.mimeType = octetStream := by
  intro l
  induction l with
  | nil =>
    intro s fp hfp
    cases hfp
  | cons fp₀ rest ih =>
    intro s fp hfp hk i hm sz hd
    rw [List.foldl_cons]
    rcases List.mem_cons.mp hfp with rfl | hfp2
    · have hstep : insertFileStep d m known s fp =
          { s with files := s.files ++
              [⟨freshFileId s, i, baseName fp, fp, sz, octetStream⟩] } := by
        rw [insertFileStep, if_neg (by rw [hk]; exact Bool.false_ne_true),
          hm, hd]
      rw [hstep]
      obtain ⟨_, r2, hr2, _⟩ := insertFiles_frame d m known rest
        { s with files := s.files ++
            [⟨freshFileId s, i, baseName fp, fp, sz, octetStream⟩] }
      refine ⟨⟨freshFileId s, i, baseName fp, fp, sz, octetStream⟩, ?_,
        rfl, rfl, rfl, rfl, rfl⟩
      rw [hr2]
      exact List.mem_append_left _
        (List.mem_append_right _ (List.mem_singleton_self _))
    · exact ih _ fp hfp2 hk i hm sz hd

/-! ### Seen-set membership lemmas -/

theorem mem_syncSeenFolders (d : Disk) (base x : List Char) :
    x ∈ syncSeenFolders d base ↔
      x ∈ (syncWalked d base).map toLogical ∨ x = base := by
  rw [syncSeenFolders, mem_addSeen, mem_foldl_addSeen]
  constructor
  · rintro ((h | h) | h)
    · cases h
    · exact Or.inl h
    · exact Or.inr h
  · rintro (h | h)
    · exact Or.inl (Or.inr h)
    · exact Or.inr h

theorem nodup_syncSeenFolders (d : Disk) (base : List Char) :
    (syncSeenFolders d base).Nodup := by
  rw [syncSeenFolders]
  exact nodup_addSeen _ _ (nodup_foldl_addSeen _ [] List.nodup_nil)

theorem mem_syncSeenFiles (d : Disk) (base x : List Char) :
    x ∈ syncSeenFiles d base ↔
      x ∈ d.files.map Prod.fst ∧
        (parentPath x = fullPathToPhysical base ∨
          parentPath x ∈ syncWalked d base) := by
  rw [syncSeenFiles, mem_foldl_addSeen]
  constructor
  · rintro (h | h)
    · cases h
    · obtain ⟨h1, h2⟩ := List.mem_filter.mp h
      refine ⟨h1, ?_⟩
      rcases List.mem_cons.mp (List.elem_iff.mp h2) with heq | hmem
      · exact Or.inl heq
      · exact Or.inr hmem
  · rintro ⟨h1, h2⟩
    refine Or.inr (List.mem_filter.mpr ⟨h1, ?_⟩)
    apply List.elem_iff.mpr
    rcases h2 with h | h
    · rw [h]
      exact List.mem_cons_self _ _
    · exact List.mem_cons_of_mem _ h

/-- C1: on a well-formed disk (every directory a well-formed physical path
strictly inside the upload root, depths bounded by the directory count, the
under-base portion closed under taking parents) whose base directory exists
and whose entries have no corresponding Store records, one pass of
`discoverAndSyncFolderRecursive` (app.js lines 1976-2178, the background
discovery enqueued by the listing reads at lines 2209 and 2275) walks every
directory below the base — arbitrarily deep — and inserts one Folder row
per walked directory, named after its last segment and linked by parentId
to a row holding its parent directory's logical path, and one File row per
seen file (base name, size from disk, default mime type) linked by folderId
to the row holding its directory's logical path. -/
theorem c1_recursive_discovery (d : Disk) (s : Store) (folderId : Nat)
    (base : List Char)
    (hbase : goodAbs base = true)
    (hdisk : dirExistsOnDisk d (fullPathToPhysical base) = true)
    (hdirs : ∀ q ∈ d.dirs, goodPhys q = true)
    (hrow : ∃ g ∈ s.folders, g.fullPath = base)
    (hFoldersFresh : ∀ q ∈ syncWalked d base, ∀ g ∈ s.folders,
      g.fullPath ≠ toLogical q)
    (hFilesFresh : ∀ fp ∈ syncSeenFiles d base, ∀ fl ∈ s.files,
      fl.storagePath ≠ fp)
    (hdepth : ∀ q ∈ d.dirs, (pathParts q).length ≤
      (pathParts (fullPathToPhysical base)).length + d.dirs.length)
    (hclosed : ∀ q ∈ d.dirs,
      (pathParts (fullPathToPhysical base)).isPrefixOf (pathParts q) = true →
      (pathParts (fullPathToPhysical base)).length < (pathParts q).length →
      parentPath q = fullPathToPhysical base ∨ parentPath q ∈ d.dirs) :
    (∀ q ∈ d.dirs,
      (pathParts (fullPathToPhysical base)).isPrefixOf (pathParts q) = true →
      (pathParts (fullPathToPhysical base)).length < (pathParts q).length →
      q ∈ syncWalked d base) ∧
    (∀ q ∈ syncWalked d base,
      ∃ g ∈ (discoverAndSyncFolderRecursive d s folderId base).1.folders,
        g.fullPath = toLogical q ∧ g.name = baseName (toLogical q) ∧
        ∃ p ∈ (discoverAndSyncFolderRecursive d s folderId base).1.folders,
          g.parentId = some p.id ∧ p.fullPath = toLogical (parentPath q)) ∧
    (∀ fp ∈ syncSeenFiles d base,
      ∃ fl ∈ (discoverAndSyncFolderRecursive d s folderId base).1.files,
        fl.storagePath = fp ∧ fl.name = baseName fp ∧
        fl.sizeBytes = (List.lookup fp d.files).getD 0 ∧
        fl.mimeType = octetStream ∧
        ∃ p ∈ (discoverAndSyncFolderRecursive d s folderId base).1.folders,
          fl.folderId = p.id ∧ p.fullPath = toLogical (parentPath fp)) := by
  have hphysB := toLogical_physical_goodAbs base hbase
  have hpbphys := hphysB.2.1
  have hpbabs : goodAbs (fullPathToPhysical base) = true :=
    (goodPhys_spec _ hpbphys).1
  have hroot3 : uploadRootSegs.length = 3 := by decide
  have hpblen : 3 < (pathParts (fullPathToPhysical base)).length := by
    have := (goodPhys_spec _ hpbphys).2.2
    omega
  -- facts about every walked directory
  have hwalkfacts : ∀ q ∈ syncWalked d base,
      goodPhys q = true ∧ goodAbs (toLogical q) = true ∧
      2 ≤ (pathParts (toLogical q)).length ∧
      parentPath (toLogical q) = toLogical (parentPath q) ∧
      parentPath (toLogical q) ≠ [] ∧
      (parentPath q = fullPathToPhysical base ∨
        parentPath q ∈ syncWalked d base) := by
    intro q hq
    have hqd : q ∈ d.dirs := walkDirs_subset d _ _ q hq
    have hqphys := hdirs q hqd
    have hqparts := walkDirs_parts d hdirs _ _ q hpbabs hq
    have hdeep : uploadRootSegs.length + 1 < (pathParts q).length := by
      omega
    obtain ⟨t, htne, hparts, htall, htl, _, hlabs, hlparts⟩ :=
      goodPhys_decomp q hqphys
    have htlen : 2 ≤ t.length := by
      have := congrArg List.length hparts
      rw [List.length_append] at this
      omega
    have hllen : 2 ≤ (pathParts (toLogical q)).length := by
      rw [hlparts]
      omega
    have hcomm := toLogical_parentPath_comm q hqphys hdeep
    have hppne : parentPath (toLogical q) ≠ [] := by
      obtain ⟨hpp, _, _⟩ := parentPath_goodAbs (toLogical q) hlabs hllen
      rw [hpp]
      simp [slashJoin]
    have hparent : parentPath q = fullPathToPhysical base ∨
        parentPath q ∈ syncWalked d base := by
      rw [syncWalked] at hq ⊢
      exact walkDirs_parent d _ _ q hq
    exact ⟨hqphys, hlabs, hllen, hcomm.1, hppne, hparent⟩
  -- initial-map facts
  have hInv0 : ∀ k i,
      List.lookup k (buildFolderMap (syncMatchRows s base)) = some i →
      ∃ g ∈ s.folders, g.id = i ∧ g.fullPath = k := by
    intro k i h
    rw [buildFolderMap] at h
    rcases buildFolderMap_lookup _ _ k i h with ⟨g, hg, hp, hi⟩ | h2
    · rw [syncMatchRows] at hg
      exact ⟨g, (List.mem_filter.mp hg).1, hi, hp⟩
    · rw [List.lookup_nil] at h2
      exact Option.noConfusion h2
  have hbaseSome :
      (List.lookup base (buildFolderMap (syncMatchRows s base))).isSome =
        true := by
    obtain ⟨g, hg, hgp⟩ := hrow
    have hgm : g ∈ syncMatchRows s base := by
      rw [syncMatchRows]
      refine List.mem_filter.mpr ⟨hg, ?_⟩
      rw [hgp]
      exact isPrefixOf_self base
    have hx := buildFolderMap_isSome (syncMatchRows s base) [] g hgm
    rw [hgp] at hx
    rw [buildFolderMap]
    exact hx
  have hsort := List.sorted_insertionSort depthLe (syncSeenFolders d base)
  have hperm := List.perm_insertionSort depthLe (syncSeenFolders d base)
  have hndsort : (List.insertionSort depthLe (syncSeenFolders d base)).Nodup :=
    hperm.nodup_iff.mpr (nodup_syncSeenFolders d base)
  have hmem_sorted : ∀ x : List Char,
      x ∈ List.insertionSort depthLe (syncSeenFolders d base) ↔
        x ∈ syncSeenFolders d base := fun x => hperm.mem_iff
  have hfreshnone : ∀ q ∈ syncWalked d base,
      List.lookup (toLogical q) (buildFolderMap (syncMatchRows s base)) =
        none := by
    intro q hq
    cases h : List.lookup (toLogical q)
        (buildFolderMap (syncMatchRows s base)) with
    | none => rfl
    | some i =>
      obtain ⟨g, hg, hgi, hgp⟩ := hInv0 _ _ h
      exact absurd hgp (hFoldersFresh q hq g hg)
  have hgood0 : ∀ x ∈ List.insertionSort depthLe (syncSeenFolders d base),
      List.lookup x (buildFolderMap (syncMatchRows s base)) = none →
      goodAbs x = true ∧ parentPath x ≠ [] := by
    intro x hx hxn
    rcases (mem_syncSeenFolders d base x).mp ((hmem_sorted x).mp hx) with
      h | h
    · obtain ⟨q, hq, rfl⟩ := List.mem_map.mp h
      obtain ⟨_, hlabs, _, _, hppne, _⟩ := hwalkfacts q hq
      exact ⟨hlabs, hppne⟩
    · subst h
      rw [hxn] at hbaseSome
      simp at hbaseSome
  have hpar0 : ∀ x ∈ List.insertionSort depthLe (syncSeenFolders d base),
      List.lookup x (buildFolderMap (syncMatchRows s base)) = none →
      (List.lookup (parentPath x)
        (buildFolderMap (syncMatchRows s base))).isSome = true ∨
        parentPath x ∈ List.insertionSort depthLe (syncSeenFolders d base) := by
    intro x hx hxn
    rcases (mem_syncSeenFolders d base x).mp ((hmem_sorted x).mp hx) with
      h | h
    · obtain ⟨q, hq, rfl⟩ := List.mem_map.mp h
      obtain ⟨_, _, _, hcomm, _, hparent⟩ := hwalkfacts q hq
      refine Or.inr ?_
      rw [hmem_sorted (parentPath (toLogical q)),
        mem_syncSeenFolders d base (parentPath (toLogical q))]
      rcases hparent with hp | hp
      · right
        rw [hcomm, hp, hphysB.1]
      · left
        rw [hcomm]
        exact List.mem_map.mpr ⟨parentPath q, hp, rfl⟩
    · subst h
      rw [hxn] at hbaseSome
      simp at hbaseSome
  -- the fold-level facts, phrased against the sync definitions
  obtain ⟨⟨restG, hrestGeq, hrestGmem⟩, hfilesEqRaw, hmapmono, hkeysRaw⟩ :=
    insertFolders_frame folderId
      (List.insertionSort depthLe (syncSeenFolders d base)) s
      (buildFolderMap (syncMatchRows s base))
      ((syncMatchRows s base).map Folder.id)
  have hfilesEq : (syncFolderPhase d s folderId base).1.files = s.files :=
    hfilesEqRaw
  have hkeys : ∀ x ∈ List.insertionSort depthLe (syncSeenFolders d base),
      (List.lookup x (syncFolderPhase d s folderId base).2.1).isSome =
        true := hkeysRaw
  obtain ⟨hfpFoldersRaw, restF, hfpFilesRaw, hrestFmem⟩ :=
    insertFiles_frame d (syncFolderPhase d s folderId base).2.1
      (syncKnownPaths (syncFolderPhase d s folderId base).1
        (syncFolderPhase d s folderId base).2.2)
      (syncSeenFiles d base) (syncFolderPhase d s folderId base).1
  have hfpFolders : (syncFilePhase d s folderId base).folders =
      (syncFolderPhase d s folderId base).1.folders := hfpFoldersRaw
  have hunfold : discoverAndSyncFolderRecursive d s folderId base =
      (syncFilePhase d s folderId base,
        syncFileJobs d s folderId base ++ syncFolderJobs d s folderId base) := by
    rw [discoverAndSyncFolderRecursive, if_pos hdisk]
  have hstore : (discoverAndSyncFolderRecursive d s folderId base).1 =
      syncFilePhase d s folderId base := by
    rw [hunfold]
  refine ⟨?_, ?_, ?_⟩
  · -- every under-base directory on disk is walked
    intro q hq hpre hlt
    rw [syncWalked]
    exact walk_complete d (fullPathToPhysical base) hdirs hpbabs hclosed
      (pathParts q).length q le_rfl hq hpre hlt (d.dirs.length + 1)
      (by have := hdepth q hq; omega)
  · -- every walked directory gets a correctly linked Folder row
    intro q hq
    have hx : toLogical q ∈
        List.insertionSort depthLe (syncSeenFolders d base) := by
      rw [hmem_sorted (toLogical q), mem_syncSeenFolders d base (toLogical q)]
      exact Or.inl (List.mem_map.mpr ⟨q, hq, rfl⟩)
    obtain ⟨g, hg, hgp2, hgname, p, hp, hgpid, hppath⟩ :=
      insertFolders_link folderId
        (List.insertionSort depthLe (syncSeenFolders d base)) s
        (buildFolderMap (syncMatchRows s base))
        ((syncMatchRows s base).map Folder.id)
        hsort hndsort hInv0 hgood0 hpar0 (toLogical q) hx (hfreshnone q hq)
    have hgmem : g ∈ (syncFolderPhase d s folderId base).1.folders := hg
    have hpmem : p ∈ (syncFolderPhase d s folderId base).1.folders := hp
    have hcomm := (hwalkfacts q hq).2.2.2.1
    rw [hstore]
    exact ⟨g, by rw [hfpFolders]; exact hgmem, hgp2, hgname,
      p, by rw [hfpFolders]; exact hpmem, hgpid, by rw [← hcomm]; exact hppath⟩
  · -- every seen file gets a correctly linked File row
    intro fp hfp
    obtain ⟨hfpd, hfppar⟩ := (mem_syncSeenFiles d base fp).mp hfp
    have hknown : (syncKnownPaths (syncFolderPhase d s folderId base).1
        (syncFolderPhase d s folderId base).2.2).contains fp = false := by
      cases hc : (syncKnownPaths (syncFolderPhase d s folderId base).1
          (syncFolderPhase d s folderId base).2.2).contains fp with
      | false => rfl
      | true =>
        have hmem := List.elem_iff.mp hc
        rw [syncKnownPaths] at hmem
        obtain ⟨fl, hfl, hflp⟩ := List.mem_map.mp hmem
        have hfl2 := (List.mem_filter.mp hfl).1
        rw [hfilesEq] at hfl2
        exact absurd hflp (hFilesFresh fp hfp fl hfl2)
    have hxmem : toLogical (parentPath fp) ∈
        List.insertionSort depthLe (syncSeenFolders d base) := by
      rw [hmem_sorted (toLogical (parentPath fp)),
        mem_syncSeenFolders d base (toLogical (parentPath fp))]
      rcases hfppar with h | h
      · right
        rw [h, hphysB.1]
      · left
        exact List.mem_map.mpr ⟨parentPath fp, h, rfl⟩
    obtain ⟨i, hi⟩ := Option.isSome_iff_exists.mp
      (hkeys (toLogical (parentPath fp)) hxmem)
    obtain ⟨sz, hsz⟩ := Option.isSome_iff_exists.mp
      (lookup_isSome_of_mem_keys d.files fp hfpd)
    obtain ⟨fl, hfl, hflp, hfln, hflf, hflsz, hflm⟩ :=
      insertFiles_insert d (syncFolderPhase d s folderId base).2.1
        (syncKnownPaths (syncFolderPhase d s folderId base).1
          (syncFolderPhase d s folderId base).2.2)
        (syncSeenFiles d base) (syncFolderPhase d s folderId base).1
        fp hfp hknown i hi sz hsz
    obtain ⟨p, hp, hpi, hpp⟩ :=
      insertFolders_inv folderId
        (List.insertionSort depthLe (syncSeenFolders d base)) s
        (buildFolderMap (syncMatchRows s base))
        ((syncMatchRows s base).map Folder.id) hInv0 _ i hi
    have hflmem : fl ∈ (syncFilePhase d s folderId base).files := hfl
    have hpmem : p ∈ (syncFolderPhase d s folderId base).1.folders := hp
    rw [hstore]
    refine ⟨fl, hflmem, hflp, hfln, ?_, hflm, p,
      by rw [hfpFolders]; exact hpmem, by rw [hflf, hpi], hpp⟩
    rw [hsz]
    exact hflsz

/-- the C1 scenario: base folder "/root" known to the store, and on disk a
fresh subdirectory "ph" containing a fresh file "i" of size 7. -/
def c1Base : List Char := ['/', 'r', 'o', 'o', 't']

def c1PhysPh : List Char := fullPathToPhysical c1Base ++ ['/', 'p', 'h']

def c1Disk : Disk :=
  ⟨[fullPathToPhysical c1Base, c1PhysPh], [(c1PhysPh ++ ['/', 'i'], 7)]⟩

def c1Store : Store :=
  ⟨[⟨1, ['r', 'o', 'o', 't'], none, c1Base⟩], [], [], []⟩

/-- C1 witness: on the concrete scenario the pass walks the nested
directory "ph", inserts a Folder row "/root/ph" named "ph" linked to the
"/root" row, and a File row for the discovered file linked to the
"/root/ph" row. -/
theorem c1_recursive_discovery_witness :
    (goodAbs c1Base = true ∧
     dirExistsOnDisk c1Disk (fullPathToPhysical c1Base) = true ∧
     (∀ q ∈ c1Disk.dirs, goodPhys q = true) ∧
     (∃ g ∈ c1Store.folders, g.fullPath = c1Base) ∧
     (∀ q ∈ syncWalked c1Disk c1Base, ∀ g ∈ c1Store.folders,
       g.fullPath ≠ toLogical q) ∧
     (∀ fp ∈ syncSeenFiles c1Disk c1Base, ∀ fl ∈ c1Store.files,
       fl.storagePath ≠ fp) ∧
     (∀ q ∈ c1Disk.dirs, (pathParts q).length ≤
       (pathParts (fullPathToPhysical c1Base)).length + c1Disk.dirs.length) ∧
     (∀ q ∈ c1Disk.dirs,
       (pathParts (fullPathToPhysical c1Base)).isPrefixOf
         (pathParts q) = true →
       (pathParts (fullPathToPhysical c1Base)).length <
         (pathParts q).length →
       parentPath q = fullPathToPhysical c1Base ∨
         parentPath q ∈ c1Disk.dirs)) ∧
    c1PhysPh ∈ syncWalked c1Disk c1Base ∧
    (∃ g ∈ (discoverAndSyncFolderRecursive c1Disk c1Store 1 c1Base).1.folders,
      g.fullPath = toLogical c1PhysPh ∧
      g.name = baseName (toLogical c1PhysPh) ∧
      ∃ p ∈ (discoverAndSyncFolderRecursive c1Disk c1Store 1 c1Base).1.folders,
        g.parentId = some p.id ∧
        p.fullPath = toLogical (parentPath c1PhysPh)) ∧
    (∃ fl ∈ (discoverAndSyncFolderRecursive c1Disk c1Store 1 c1Base).1.files,
      fl.storagePath = c1PhysPh ++ ['/', 'i'] ∧
      fl.name = baseName (c1PhysPh ++ ['/', 'i']) ∧
      fl.sizeBytes =
        (List.lookup (c1PhysPh ++ ['/', 'i']) c1Disk.files).getD 0 ∧
      fl.mimeType = octetStream ∧
      ∃ p ∈ (discoverAndSyncFolderRecursive c1Disk c1Store 1 c1Base).1.folders,
        fl.folderId = p.id ∧
        p.fullPath = toLogical (parentPath (c1PhysPh ++ ['/', 'i']))) := by
  have h := c1_recursive_discovery c1Disk c1Store 1 c1Base (by decide)
    (by decide) (by decide) (by decide) (by decide) (by decide) (by decide)
    (by decide)
  exact ⟨⟨by decide, by decide, by decide, by decide, by decide, by decide,
      by decide, by decide⟩,
    h.1 c1PhysPh (by decide) (by decide) (by decide),
    h.2.1 c1PhysPh (by decide),
    h.2.2 (c1PhysPh ++ ['/', 'i']) (by decide)⟩

/-! ### C2 helpers -/

theorem nodup_filter_singleton {α : Type} :
    ∀ (l : List α) (p : α → Bool) (a : α), l.Nodup → a ∈ l → p a = true →
      (∀ b ∈ l, p b = true → b = a) → l.filter p = [a] := by
  intro l
  induction l with
  | nil => intro p a _ ha; cases ha
  | cons c rest ih =>
    intro p a hnd ha hpa huniq
    rcases List.mem_cons.mp ha with rfl | hmem
    · rw [List.filter_cons_of_pos hpa]
      have hnil : rest.filter p = [] := by
        rw [List.filter_eq_nil_iff]
        intro b hb hpb
        have hba := huniq b (List.mem_cons_of_mem _ hb) hpb
        rw [hba] at hb
        exact (List.nodup_cons.mp hnd).1 hb
      rw [hnil]
    · have hc : ¬ p c = true := by
        intro hpc
        have hca := huniq c (List.mem_cons_self _ _) hpc
        rw [← hca] at hmem
        exact (List.nodup_cons.mp hnd).1 hmem
      rw [List.filter_cons_of_neg hc]
      exact ih p a (List.nodup_cons.mp hnd).2 hmem hpa
        (fun b hb hpb => huniq b (List.mem_cons_of_mem _ hb) hpb)

theorem contains_eq_false_of_not_mem (l : List (List Char)) (x : List Char)
    (h : x ∉ l) : l.contains x = false := by
  cases hc : l.contains x with
  | false => rfl
  | true => exact absurd (List.elem_iff.mp hc) h

theorem contains_eq_true_of_mem (l : List (List Char)) (x : List Char)
    (h : x ∈ l) : l.contains x = true := List.elem_iff.mpr h

/-- C2: for every known File record joined under the base prefix whose
storage path was not seen on disk, and every known prefix-matching Folder
record whose full path was not seen, the reconciliation pass of
`discoverAndSyncFolderRecursive` (app.js lines 2126-2176) enqueues exactly
one cleanup job for that record; each job deletes only the record and its
tag associations (the folder job also the contained Files), and neither
the pass nor the jobs touch the disk: the pass returns the store and the
job list without writing the disk, and every enqueued job leaves the disk
component untouched when run. -/
theorem c2_sync_vanished_jobs (d : Disk) (s : Store) (folderId : Nat)
    (base : List Char)
    (hdisk : dirExistsOnDisk d (fullPathToPhysical base) = true)
    (hFileIds : (s.files.map FileRec.id).Nodup)
    (hFolderIds : (s.folders.map Folder.id).Nodup) :
    (∀ fl ∈ s.files, ∀ g ∈ s.folders, fl.folderId = g.id →
      base.isPrefixOf g.fullPath = true →
      fl.storagePath ∉ syncSeenFiles d base →
      (discoverAndSyncFolderRecursive d s folderId base).2.filter
        (fun j => j == DbJob.deleteFileRec fl.id) =
        [DbJob.deleteFileRec fl.id]) ∧
    (∀ g ∈ s.folders, base.isPrefixOf g.fullPath = true →
      g.fullPath ∉ syncSeenFolders d base →
      (discoverAndSyncFolderRecursive d s folderId base).2.filter
        (fun j => j == DbJob.deleteFolderRec g.id) =
        [DbJob.deleteFolderRec g.id]) ∧
    (∀ st i, runDbJob st (DbJob.deleteFileRec i) = deleteFileCleanup st i) ∧
    (∀ st i, runDbJob st (DbJob.deleteFolderRec i) =
      deleteFolderCleanup st i) ∧
    (∀ (st : Store) (dk : Disk) (j : DbJob),
      j ∈ (discoverAndSyncFolderRecursive d s folderId base).2 →
      (runDbJobFull st dk j).2 = dk) := by
  obtain ⟨⟨restG, hrestGeq, hrestGmem⟩, hfilesEqRaw, _, _⟩ :=
    insertFolders_frame folderId
      (List.insertionSort depthLe (syncSeenFolders d base)) s
      (buildFolderMap (syncMatchRows s base))
      ((syncMatchRows s base).map Folder.id)
  have hS1folders : (syncFolderPhase d s folderId base).1.folders =
      s.folders ++ restG := hrestGeq
  have hfilesEq : (syncFolderPhase d s folderId base).1.files = s.files :=
    hfilesEqRaw
  obtain ⟨hfpFoldersRaw, restF, hfpFilesRaw, hrestFmem⟩ :=
    insertFiles_frame d (syncFolderPhase d s folderId base).2.1
      (syncKnownPaths (syncFolderPhase d s folderId base).1
        (syncFolderPhase d s folderId base).2.2)
      (syncSeenFiles d base) (syncFolderPhase d s folderId base).1
  have hS2folders : (syncFilePhase d s folderId base).folders =
      s.folders ++ restG := by
    have h1 : (syncFilePhase d s folderId base).folders =
        (syncFolderPhase d s folderId base).1.folders := hfpFoldersRaw
    rw [h1, hS1folders]
  have hS2files : (syncFilePhase d s folderId base).files =
      s.files ++ restF := by
    have h1 : (syncFilePhase d s folderId base).files =
        (syncFolderPhase d s folderId base).1.files ++ restF := hfpFilesRaw
    rw [h1, hfilesEq]
  have hperm := List.perm_insertionSort depthLe (syncSeenFolders d base)
  have hunfold : discoverAndSyncFolderRecursive d s folderId base =
      (syncFilePhase d s folderId base,
        syncFileJobs d s folderId base ++ syncFolderJobs d s folderId base) := by
    rw [discoverAndSyncFolderRecursive, if_pos hdisk]
  have hjobs : (discoverAndSyncFolderRecursive d s folderId base).2 =
      syncFileJobs d s folderId base ++ syncFolderJobs d s folderId base := by
    rw [hunfold]
  refine ⟨?_, ?_, fun st i => rfl, fun st i => rfl, ?_⟩
  · -- vanished files: exactly one job
    intro fl hfl g hg hfg hpre hnseen
    rw [hjobs, List.filter_append]
    have hB : (syncFolderJobs d s folderId base).filter
        (fun j => j == DbJob.deleteFileRec fl.id) = [] := by
      rw [List.filter_eq_nil_iff]
      intro j hj
      rw [syncFolderJobs] at hj
      obtain ⟨g', _, rfl⟩ := List.mem_map.mp hj
      simp
    rw [hB, List.append_nil, syncFileJobs, List.filter_map]
    have hsingle : ((((syncFilePhase d s folderId base).files.filter (fun f =>
        (syncFilePhase d s folderId base).folders.any (fun g =>
          g.id == f.folderId && base.isPrefixOf g.fullPath))).filter (fun f =>
        !((syncSeenFiles d base).contains f.storagePath))).filter
        ((fun j => j == DbJob.deleteFileRec fl.id) ∘
          (fun f => DbJob.deleteFileRec f.id))) = [fl] := by
      rw [hS2files, List.filter_append, List.filter_append,
        List.filter_append]
      have hY : ((restF.filter (fun f =>
          (syncFilePhase d s folderId base).folders.any (fun g =>
            g.id == f.folderId && base.isPrefixOf g.fullPath))).filter
          (fun f => !((syncSeenFiles d base).contains f.storagePath))) = [] := by
        rw [List.filter_eq_nil_iff]
        intro b hb
        have hbF := (List.mem_filter.mp hb).1
        have hbseen := hrestFmem b hbF
        rw [contains_eq_true_of_mem _ _ hbseen]
        simp
      rw [hY, List.filter_nil, List.append_nil, List.filter_filter,
        List.filter_filter]
      apply nodup_filter_singleton s.files _ fl
        (List.Nodup.of_map FileRec.id hFileIds) hfl
      · have h1 : ((fun j => j == DbJob.deleteFileRec fl.id) ∘
            (fun f => DbJob.deleteFileRec f.id)) fl = true := by
          simp
        have h2 : (!((syncSeenFiles d base).contains fl.storagePath)) = true := by
          rw [contains_eq_false_of_not_mem _ _ hnseen]
          rfl
        have h3 : ((syncFilePhase d s folderId base).folders.any (fun g =>
            g.id == fl.folderId && base.isPrefixOf g.fullPath)) = true := by
          apply List.any_eq_true.mpr
          refine ⟨g, ?_, ?_⟩
          · rw [hS2folders]
            exact List.mem_append_left _ hg
          · rw [beq_iff_eq.mpr hfg.symm, hpre]
            rfl
        rw [Function.comp] at h1 ⊢
        rw [h1, h2, h3]
        rfl
      · intro b hb hpb
        rw [Bool.and_eq_true, Bool.and_eq_true] at hpb
        have hbid : b.id = fl.id := by
          have := hpb.1.1
          rw [Function.comp] at this
          simp at this
          exact this
        exact List.inj_on_of_nodup_map hFileIds hb hfl hbid
    rw [hsingle]
    rfl
  · -- vanished folders: exactly one job
    intro g hg hpre hnseen
    rw [hjobs, List.filter_append]
    have hA : (syncFileJobs d s folderId base).filter
        (fun j => j == DbJob.deleteFolderRec g.id) = [] := by
      rw [List.filter_eq_nil_iff]
      intro j hj
      rw [syncFileJobs] at hj
      obtain ⟨f', _, rfl⟩ := List.mem_map.mp hj
      simp
    rw [hA, List.nil_append, syncFolderJobs, List.filter_map]
    have hsingle : ((((syncFilePhase d s folderId base).folders.filter
        (fun g => base.isPrefixOf g.fullPath)).filter (fun g =>
        !((syncSeenFolders d base).contains g.fullPath))).filter
        ((fun j => j == DbJob.deleteFolderRec g.id) ∘
          (fun g => DbJob.deleteFolderRec g.id))) = [g] := by
      rw [hS2folders, List.filter_append, List.filter_append,
        List.filter_append]
      have hY : ((restG.filter (fun g => base.isPrefixOf g.fullPath)).filter
          (fun g => !((syncSeenFolders d base).contains g.fullPath))) = [] := by
        rw [List.filter_eq_nil_iff]
        intro b hb
        have hbG := (List.mem_filter.mp hb).1
        have hbseen : b.fullPath ∈ syncSeenFolders d base :=
          hperm.mem_iff.mp (hrestGmem b hbG)
        rw [contains_eq_true_of_mem _ _ hbseen]
        simp
      rw [hY, List.filter_nil, List.append_nil, List.filter_filter,
        List.filter_filter]
      apply nodup_filter_singleton s.folders _ g
        (List.Nodup.of_map Folder.id hFolderIds) hg
      · have h1 : ((fun j => j == DbJob.deleteFolderRec g.id) ∘
            (fun g => DbJob.deleteFolderRec g.id)) g = true := by
          simp
        have h2 : (!((syncSeenFolders d base).contains g.fullPath)) = true := by
          rw [contains_eq_false_of_not_mem _ _ hnseen]
          rfl
        rw [Function.comp] at h1 ⊢
        rw [h1, h2, hpre]
        rfl
      · intro b hb hpb
        rw [Bool.and_eq_true, Bool.and_eq_true] at hpb
        have hbid : b.id = g.id := by
          have := hpb.1.1
          rw [Function.comp] at this
          simp at this
          exact this
        exact List.inj_on_of_nodup_map hFolderIds hb hg hbid
    rw [hsingle]
    rfl
  · intro st dk j _
    rfl

/-- the C2 scenario: the store knows "/root" (id 1) and its subfolder
"/root/dr" (id 2) holding file "g" (id 5), but on disk only the base
directory remains: both the file and the folder have vanished. -/
def c2Base : List Char := ['/', 'r', 'o', 'o', 't']

def c2Disk : Disk := ⟨[fullPathToPhysical c2Base], []⟩

def c2GhostPath : List Char :=
  fullPathToPhysical c2Base ++ ['/', 'd', 'r', '/', 'g']

def c2Store : Store :=
  ⟨[⟨1, ['r', 'o', 'o', 't'], none, c2Base⟩,
    ⟨2, ['d', 'r'], some 1, c2Base ++ ['/', 'd', 'r']⟩],
   [⟨5, 2, ['g'], c2GhostPath, 3, octetStream⟩], [], []⟩

/-- C2 witness: on the concrete scenario the pass enqueues exactly one
job deleting File record 5 and exactly one job deleting Folder record 2,
and running a job leaves the disk untouched. -/
theorem c2_sync_vanished_jobs_witness :
    (dirExistsOnDisk c2Disk (fullPathToPhysical c2Base) = true ∧
     (c2Store.files.map FileRec.id).Nodup ∧
     (c2Store.folders.map Folder.id).Nodup) ∧
    (discoverAndSyncFolderRecursive c2Disk c2Store 1 c2Base).2.filter
      (fun j => j == DbJob.deleteFileRec 5) = [DbJob.deleteFileRec 5] ∧
    (discoverAndSyncFolderRecursive c2Disk c2Store 1 c2Base).2.filter
      (fun j => j == DbJob.deleteFolderRec 2) = [DbJob.deleteFolderRec 2] ∧
    (runDbJobFull c2Store c2Disk (DbJob.deleteFolderRec 2)).2 = c2Disk := by
  have h := c2_sync_vanished_jobs c2Disk c2Store 1 c2Base (by decide)
    (by decide) (by decide)
  refine ⟨⟨by decide, by decide, by decide⟩, ?_, ?_, ?_⟩
  · exact h.1 ⟨5, 2, ['g'], c2GhostPath, 3, octetStream⟩ (by decide)
      ⟨2, ['d', 'r'], some 1, c2Base ++ ['/', 'd', 'r']⟩ (by decide)
      (by decide) (by decide) (by decide)
  · exact h.2.1 ⟨2, ['d', 'r'], some 1, c2Base ++ ['/', 'd', 'r']⟩
      (by decide) (by decide) (by decide)
  · exact h.2.2.2.2 c2Store c2Disk (DbJob.deleteFolderRec 2) (by decide)
